import Mathlib

/-
  Verification of the LyX tikz-marker insertion tool
  (source: insert_tikz_lyx_debug.py).

  The document is modelled as a list of lines, each line a list of
  characters (as produced by Python readlines, each line keeps its
  trailing newline character).  Regular-expression searches of the
  source are modelled by explicit character-level scanners:

  * ENV_LINE_RE  =  backslash-token, then whitespace, then
    begin{tikzpicture} or begin{quantikz}.  The source pattern is
    written with the whitespace bridge spelled as a sequence of
    whitespace pieces; as a language it is exactly "zero or more
    whitespace characters", and since the continuation starts with a
    non-whitespace character, greedy consumption of whitespace is an
    exact model of the regex search at a position.

  * TIKZSET_RE   =  backslash-token, whitespace, the marker keyword,
    an opening brace, one or more non-brace characters, a closing
    brace.  Again the whitespace bridge collapses to "zero or more
    whitespace characters", and greedy matching of the non-brace run
    is exact because that run may not contain the closing brace.

  * the per-run index pattern of get_tikz_indices likewise, with the
    brace argument constrained to the configured name stem followed by
    one or more decimal digits.

  All functions are structurally (or fuel-) recursive so that every
  definition evaluates inside the kernel.
-/

namespace InsertTikz

abbrev Line := List Char

abbrev Block := List Line

/-- Python `\s` whitespace class restricted to the characters that can
occur in the modelled documents (space, tab, newline, carriage return,
vertical tab, form feed). -/
def isPySpace (c : Char) : Bool :=
  c = ' ' || c = '\t' || c = '\n' || c = '\r' || c = '\x0b' || c = '\x0c'

/-- Strip a literal character sequence from the front of the input,
returning the remainder on success. -/
def stripLit : List Char → List Char → Option (List Char)
  | [], s => some s
  | _ :: _, [] => none
  | p :: ps, c :: cs => if c = p then stripLit ps cs else none

/-- Python substring containment `pat in s`. -/
def containsSub (pat : List Char) : List Char → Bool
  | [] => (stripLit pat []).isSome
  | c :: cs => (stripLit pat (c :: cs)).isSome || containsSub pat cs

/-- Python `"\n".join(lines)`. -/
def joinLines : List Line → List Char
  | [] => []
  | [l] => l
  | l :: ls => l ++ '\n' :: joinLines ls

def backslashTok : List Char := r"\backslash".toList

def envTikzpicture : List Char := "begin{tikzpicture}".toList

def envQuantikz : List Char := "begin{quantikz}".toList

/-- The marker keyword together with its opening brace. -/
def tikzsetKeywordBrace : List Char := "tikzsetnextfilename".toList ++ ['{']

def beginLayoutSig : List Char := r"\begin_layout Plain Layout".toList

def endLayoutSig : List Char := r"\end_layout".toList

def ertBeginSig : List Char := r"\begin_inset ERT".toList

def endInsetSig : List Char := r"\end_inset".toList

/-- One attempted match of ENV_LINE_RE at the start of `s`. -/
def matchEnvAt (s : List Char) : Bool :=
  match stripLit backslashTok s with
  | none => false
  | some rest =>
    let r := rest.dropWhile isPySpace
    (stripLit envTikzpicture r).isSome || (stripLit envQuantikz r).isSome

/-- `ENV_LINE_RE.search`: try a match at every position. -/
def searchEnv : List Char → Bool
  | [] => false
  | c :: cs => matchEnvAt (c :: cs) || searchEnv cs

/-- Source `has_environment`: the block lines are joined with newlines
and searched for the environment pattern. -/
def has_environment (lines_block : Block) : Bool :=
  searchEnv (joinLines lines_block)

/-- One attempted match of TIKZSET_RE at the start of `s`. -/
def matchTikzsetAt (s : List Char) : Bool :=
  match stripLit backslashTok s with
  | none => false
  | some rest =>
    match stripLit tikzsetKeywordBrace (rest.dropWhile isPySpace) with
    | none => false
    | some r2 =>
      !(r2.takeWhile (fun c => c ≠ '}')).isEmpty &&
        (match r2.dropWhile (fun c => c ≠ '}') with
          | '}' :: _ => true
          | _ => false)

/-- `TIKZSET_RE.search`. -/
def searchTikz : List Char → Bool
  | [] => false
  | c :: cs => matchTikzsetAt (c :: cs) || searchTikz cs

/-- Source `has_tikzset`. -/
def has_tikzset (lines_block : Block) : Bool :=
  searchTikz (joinLines lines_block)

/-- Python `int` of a single decimal digit character. -/
def digitVal (c : Char) : Nat := c.toNat - 48

/-- Python `int` of a string of decimal digits. -/
def digitsToNat (ds : List Char) : Nat :=
  ds.foldl (fun a c => a * 10 + digitVal c) 0

/-- One attempted match of the per-run index pattern of
`get_tikz_indices` at the start of `s`; on success returns the parsed
integer and the remainder of the input after the match. -/
def matchIdxAt (pfx : List Char) (s : List Char) : Option (Nat × List Char) :=
  match stripLit backslashTok s with
  | none => none
  | some rest =>
    match stripLit (tikzsetKeywordBrace ++ pfx) (rest.dropWhile isPySpace) with
    | none => none
    | some r2 =>
      let ds := r2.takeWhile Char.isDigit
      if ds.isEmpty then none
      else
        match r2.dropWhile Char.isDigit with
        | '}' :: r3 => some (digitsToNat ds, r3)
        | _ => none

/-- `pat.finditer`: scan left to right; at a match, emit the parsed
integer and resume after the match.  The fuel argument is instantiated
with the length of the scanned text, which suffices because every
match consumes at least one character. -/
def findIndicesAux (pfx : List Char) : Nat → List Char → List Nat
  | 0, _ => []
  | _ + 1, [] => []
  | fuel + 1, c :: cs =>
    match matchIdxAt pfx (c :: cs) with
    | some nr => nr.1 :: findIndicesAux pfx fuel nr.2
    | none => findIndicesAux pfx fuel cs

/-- Source `get_tikz_indices`. -/
def get_tikz_indices (lines_block : Block) (pfx : List Char) : List Nat :=
  findIndicesAux pfx (joinLines lines_block).length (joinLines lines_block)

/-- Decimal digit character for a value below ten. -/
def digitChar (d : Nat) : Char := Char.ofNat (48 + d)

/-- Decimal printer loop (fuel-recursive; fuel `n` suffices for value
`n` because the value shrinks by a factor of ten each step). -/
def natDigitsGo : Nat → Nat → List Char → List Char
  | 0, n, acc => digitChar n :: acc
  | fuel + 1, n, acc =>
    if n < 10 then digitChar n :: acc
    else natDigitsGo fuel (n / 10) (digitChar (n % 10) :: acc)

/-- Python decimal rendering of a natural number. -/
def natDigits (n : Nat) : List Char := natDigitsGo n n []

/-- Source `make_tikz_layout`: the four lines of a synthesized marker
sub-block. -/
def make_tikz_layout (pfx : List Char) (idx : Nat) : Block :=
  [ beginLayoutSig ++ ['\n'],
    backslashTok ++ ['\n'],
    "tikzsetnextfilename".toList ++ ['{'] ++ pfx ++ natDigits idx ++ ['}', '\n'],
    endLayoutSig ++ ['\n'] ]

/-- Loop body of source `split_into_layout_blocks`, with the running
`current` accumulator and the `in_layout` flag made explicit. -/
def splitAux : List Line → List Line → Bool → List Block
  | [], current, _ => if current.isEmpty then [] else [current]
  | line :: rest, current, inLayout =>
    if containsSub beginLayoutSig line then
      (if current.isEmpty then [] else [current]) ++ splitAux rest [line] true
    else if containsSub endLayoutSig line && inLayout then
      (current ++ [line]) :: splitAux rest [] false
    else
      splitAux rest (current ++ [line]) inLayout

/-- Source `split_into_layout_blocks`. -/
def split_into_layout_blocks (ert_block_lines : List Line) : List Block :=
  splitAux ert_block_lines [] false

/-- Source `join_layout_blocks`. -/
def join_layout_blocks (blocks : List Block) : List Line :=
  blocks.flatten

/-- The while-loop of source `insert_tikz_in_ert`.  One unit of fuel is
spent per iteration; calling with fuel `blocks.length - i` is exact
because every iteration decreases `blocks.length - i` by exactly one
(plain advance: the index grows by one; insertion: the list grows by
one and the index by two) and the loop stops when the index reaches
the length. -/
def insertLoop (pfx : List Char) : Nat → List Block → Nat → Nat → List Block × Nat
  | 0, blocks, _, n => (blocks, n)
  | fuel + 1, blocks, i, n =>
    if h : i < blocks.length then
      if has_environment (blocks.get ⟨i, h⟩) then
        if has_tikzset (blocks.get ⟨i, h⟩) then
          insertLoop pfx fuel blocks (i + 1) n
        else if hp : 0 < i then
          if has_tikzset (blocks.get ⟨i - 1, by omega⟩) then
            insertLoop pfx fuel blocks (i + 1) n
          else
            insertLoop pfx fuel (blocks.insertIdx i (make_tikz_layout pfx n)) (i + 2) (n + 1)
        else
          insertLoop pfx fuel (blocks.insertIdx i (make_tikz_layout pfx n)) (i + 2) (n + 1)
      else
        insertLoop pfx fuel blocks (i + 1) n
    else (blocks, n)

/-- Source `insert_tikz_in_ert`: split the region, run the insertion
loop, flatten back. -/
def insert_tikz_in_ert (ert_lines : List Line) (pfx : List Char) (start_idx : Nat) :
    List Line × Nat :=
  let blocks := split_into_layout_blocks ert_lines
  let r := insertLoop pfx blocks.length blocks 0 start_idx
  (join_layout_blocks r.1, r.2)

/-- Loop of source `find_ert_blocks`, with the position, the `inside`
flag and the recorded start index made explicit. -/
def findErtBlocksAux : List Line → Nat → Bool → Nat → List (Nat × Nat)
  | [], _, _, _ => []
  | line :: rest, i, inside, startI =>
    if !inside && containsSub ertBeginSig line then
      findErtBlocksAux rest (i + 1) true i
    else if inside && containsSub endInsetSig line then
      (startI, i) :: findErtBlocksAux rest (i + 1) false startI
    else
      findErtBlocksAux rest (i + 1) inside startI

/-- Source `find_ert_blocks`. -/
def find_ert_blocks (lines : List Line) : List (Nat × Nat) :=
  findErtBlocksAux lines 0 false 0

/-- The existing-maximum scan of source `main` (lines 268-276): over
every found region, over every layout sub-block, fold the maximum of
the indices returned by `get_tikz_indices`. -/
def computeMaxFound (lines : List Line) (pfx : List Char) : Nat :=
  (find_ert_blocks lines).foldl
    (fun acc se =>
      (split_into_layout_blocks ((lines.drop se.1).take (se.2 + 1 - se.1))).foldl
        (fun a sb => (get_tikz_indices sb pfx).foldl max a) acc) 0

/-- Source `main`, line 278: `start_val = max(args.start_index,
max_found + 1)`.  The configured start index is a machine integer of
arbitrary sign, hence `Int`. -/
def effectiveStartIndex (lines : List Line) (configStart : Int) (pfx : List Char) : Int :=
  max configStart ((computeMaxFound lines pfx : Int) + 1)

/-- The stitching loop of source `main` (lines 286-308): for each
region, copy the gap since the previous region, rewrite the region,
thread the counter; after the last region copy the tail.  (The same
recursion with an empty region list yields the tail from the current
position, matching the state of the source loop.) -/
def processErts (lines : List Line) (pfx : List Char) :
    List (Nat × Nat) → Nat → Nat → List Line × Nat
  | [], prevEnd1, n => (lines.drop prevEnd1, n)
  | se :: rest, prevEnd1, n =>
    let gap := (lines.drop prevEnd1).take (se.1 - prevEnd1)
    let ert := (lines.drop se.1).take (se.2 + 1 - se.1)
    let r1 := insert_tikz_in_ert ert pfx n
    let r2 := processErts lines pfx rest (se.2 + 1) r1.2
    (gap ++ r1.1 ++ r2.1, r2.2)

/-- Source `main` as a document transformation: when no region is
found the run exits without touching the file; otherwise the effective
start index is computed (always at least one, so the conversion to a
natural number is lossless) and the stitching loop produces the new
document. -/
def rewriteDoc (lines : List Line) (configStart : Int) (pfx : List Char) : List Line :=
  if (find_ert_blocks lines).isEmpty then lines
  else
    (processErts lines pfx (find_ert_blocks lines) 0
      (effectiveStartIndex lines configStart pfx).toNat).1

/-
  Proof-side definitions.  These are not translations of further
  source code; they re-express the recursions above in forms that are
  convenient to reason about, and each is connected to the faithful
  definitions by an equivalence theorem below.
-/

/-- The marker check applied to the optional previous sub-block (the
source guards the access with `i > 0`). -/
def prevHasTikz : Option Block → Bool
  | none => false
  | some p => has_tikzset p

/-- Reference form of the insertion loop: a left-to-right walk that
carries the previously processed original sub-block instead of an
index into a mutating list.  Proved equivalent to `insertLoop`. -/
def walk (pfx : List Char) : Option Block → List Block → Nat → List Block × Nat
  | _, [], n => ([], n)
  | prev, b :: rest, n =>
    if has_environment b then
      if has_tikzset b then
        (b :: (walk pfx (some b) rest n).1, (walk pfx (some b) rest n).2)
      else if prevHasTikz prev then
        (b :: (walk pfx (some b) rest n).1, (walk pfx (some b) rest n).2)
      else
        (make_tikz_layout pfx n :: b :: (walk pfx (some b) rest (n + 1)).1,
          (walk pfx (some b) rest (n + 1)).2)
    else
      (b :: (walk pfx (some b) rest n).1, (walk pfx (some b) rest n).2)

/-- Instrumented walk: for every original sub-block, record the marker
sub-block spliced immediately before it, if any.  Erasing the
instrumentation recovers `walk`. -/
def walkG (pfx : List Char) : Option Block → List Block → Nat → List (Option Block × Block) × Nat
  | _, [], n => ([], n)
  | prev, b :: rest, n =>
    if has_environment b then
      if has_tikzset b then
        ((none, b) :: (walkG pfx (some b) rest n).1, (walkG pfx (some b) rest n).2)
      else if prevHasTikz prev then
        ((none, b) :: (walkG pfx (some b) rest n).1, (walkG pfx (some b) rest n).2)
      else
        ((some (make_tikz_layout pfx n), b) :: (walkG pfx (some b) rest (n + 1)).1,
          (walkG pfx (some b) rest (n + 1)).2)
    else
      ((none, b) :: (walkG pfx (some b) rest n).1, (walkG pfx (some b) rest n).2)

/-- Instrumented walk recording only the counter values spent on
inserted markers, in insertion (= document) order. -/
def walkN : Option Block → List Block → Nat → List Nat
  | _, [], _ => []
  | prev, b :: rest, n =>
    if has_environment b then
      if has_tikzset b then walkN (some b) rest n
      else if prevHasTikz prev then walkN (some b) rest n
      else n :: walkN (some b) rest (n + 1)
    else walkN (some b) rest n

/-- The sub-block list produced by the insertion loop on a segmented
region (the list that `insert_tikz_in_ert` flattens). -/
def rewrittenBlocks (ert_lines : List Line) (pfx : List Char) (n : Nat) : List Block :=
  (insertLoop pfx (split_into_layout_blocks ert_lines).length
    (split_into_layout_blocks ert_lines) 0 n).1

/-- Split a line list at the first line satisfying `p`, returning the
lines before it, the line itself and the lines after it. -/
def firstSplitBy (p : Line → Bool) : List Line → Option (List Line × Line × List Line)
  | [] => none
  | l :: ls =>
    if p l then some ([], l, ls)
    else
      match firstSplitBy p ls with
      | none => none
      | some g => some (l :: g.1, g.2.1, g.2.2)

/-- Fused form of the whole rewriting pipeline: one structural pass
over the document that locates regions and rewrites them in place.
Proved equivalent to `find_ert_blocks` plus `processErts`.  The second
argument is `none` while outside a region and `some acc` while inside
one, with `acc` the region lines accumulated so far. -/
def drGo (pfx : List Char) : List Line → Option (List Line) → Nat → List Line × Nat
  | [], none, n => ([], n)
  | [], some acc, n => (acc, n)
  | l :: ls, none, n =>
    if containsSub ertBeginSig l then drGo pfx ls (some [l]) n
    else
      ((l :: (drGo pfx ls none n).1), (drGo pfx ls none n).2)
  | l :: ls, some acc, n =>
    if containsSub endInsetSig l then
      ((insert_tikz_in_ert (acc ++ [l]) pfx n).1 ++
          (drGo pfx ls none (insert_tikz_in_ert (acc ++ [l]) pfx n).2).1,
        (drGo pfx ls none (insert_tikz_in_ert (acc ++ [l]) pfx n).2).2)
    else drGo pfx ls (some (acc ++ [l])) n

/-- Marker indices inserted by the pipeline, in document order: the
stitching loop instrumented with `walkN` (decisions and counter
threading are those of the real pipeline). -/
def processErtsN (lines : List Line) (pfx : List Char) :
    List (Nat × Nat) → Nat → List Nat × Nat
  | [], n => ([], n)
  | se :: rest, n =>
    let ert := (lines.drop se.1).take (se.2 + 1 - se.1)
    let ns := walkN none (split_into_layout_blocks ert) n
    let n1 := (insert_tikz_in_ert ert pfx n).2
    let r := processErtsN lines pfx rest n1
    (ns ++ r.1, r.2)

/-- Indices of the markers newly inserted by a run, in document
order. -/
def insertedIndices (lines : List Line) (configStart : Int) (pfx : List Char) : List Nat :=
  if (find_ert_blocks lines).isEmpty then []
  else
    (processErtsN lines pfx (find_ert_blocks lines)
      (effectiveStartIndex lines configStart pfx).toNat).1

/-- All marker indices (for the given name stem) that the scan of the
run finds: over every located region, over every sub-block, the
indices reported by `get_tikz_indices`, concatenated in document
order. -/
def allRegionIndices (lines : List Line) (pfx : List Char) : List Nat :=
  ((find_ert_blocks lines).map (fun se =>
    ((split_into_layout_blocks ((lines.drop se.1).take (se.2 + 1 - se.1))).map
      (fun sb => get_tikz_indices sb pfx)).flatten)).flatten

/-- Maximum of a list of naturals (zero when empty). -/
def listMax (ns : List Nat) : Nat := ns.foldr max 0

/-- Modelled from the spec: the "maximum existing marker index found
anywhere in the document" — the marker-index scan applied to the whole
document text rather than to the sub-blocks of the located regions.
Used as the spec-side reference point of claim C4. -/
def specMaxMarkerAnywhere (lines : List Line) (pfx : List Char) : Nat :=
  listMax (get_tikz_indices lines pfx)

/-- A line carrying the sub-block-begin signature. -/
def lineBegin (l : Line) : Bool := containsSub beginLayoutSig l

/-- A line carrying the sub-block-end signature. -/
def lineEnd (l : Line) : Bool := containsSub endLayoutSig l

/-- A line carrying neither sub-block signature. -/
def lineNoSig (l : Line) : Bool := !lineBegin l && !lineEnd l

/-- A well-formed closed layout sub-block: a begin line, interior
lines without signatures, and an end line that does not also carry the
begin signature. -/
def ClosedB (b : Block) : Prop :=
  ∃ l0 ms le, b = l0 :: (ms ++ [le]) ∧ lineBegin l0 = true ∧
    (∀ m ∈ ms, lineNoSig m = true) ∧ lineEnd le = true ∧ lineBegin le = false

/-- An open layout sub-block: a begin line followed by signature-free
lines, never closed. -/
def OpenB (b : Block) : Prop :=
  ∃ l0 ms, b = l0 :: ms ∧ lineBegin l0 = true ∧ ∀ m ∈ ms, lineNoSig m = true

/-- An unstructured sub-block: nonempty, and none of its lines carries
the begin signature (end-signature lines are allowed there: while the
segmenter is outside a layout block they take the default branch). -/
def UnstrB (b : Block) : Prop := b ≠ [] ∧ ∀ l ∈ b, lineBegin l = false

/-- The first line of the first sub-block carries the begin
signature. -/
def headIsBegin : List Block → Prop
  | [] => False
  | [] :: _ => False
  | (l :: _) :: _ => lineBegin l = true

/-- Valid segmentations: exactly the sub-block lists the segmenter can
produce, closed under marker insertion.  An open or unstructured
sub-block must be the last one or be followed by a sub-block that
opens with a begin line (only a begin line can have flushed it). -/
def ValidSeg : List Block → Prop
  | [] => True
  | b :: rest =>
    (ClosedB b ∨ ((OpenB b ∨ UnstrB b) ∧ (rest = [] ∨ headIsBegin rest))) ∧
      ValidSeg rest

/-- A sub-block list in which every environment-carrying sub-block is
already satisfied: it carries a marker itself, or the block before it
(the optional first argument standing for the block preceding the
list) does.  The walk leaves settled lists unchanged. -/
def Settled : Option Block → List Block → Prop
  | _, [] => True
  | prev, b :: rest =>
    (has_environment b = true → (has_tikzset b = true ∨ prevHasTikz prev = true)) ∧
      Settled (some b) rest

/-
  Concrete documents for counterexamples and witnesses.
-/

/-- A region whose header sub-block (the lines before the first layout
block, starting with the region-begin line) contains a qualifying
environment opening.  The insertion loop then inserts a marker at
position zero, i.e. before the region-begin line. -/
def exDocHeaderEnv : List Line :=
  [ (r"\begin_inset ERT".toList ++ ['\n']),
    (backslashTok ++ ['\n']),
    ("begin{tikzpicture}".toList ++ ['\n']),
    (beginLayoutSig ++ ['\n']),
    (endLayoutSig ++ ['\n']),
    (endInsetSig ++ ['\n']) ]

/-- A well-behaved document with one region and one qualifying
sub-block and no pre-existing markers. -/
def exDocPlain : List Line :=
  [ ("before".toList ++ ['\n']),
    (r"\begin_inset ERT".toList ++ ['\n']),
    ("status open".toList ++ ['\n']),
    (beginLayoutSig ++ ['\n']),
    (backslashTok ++ ['\n']),
    ("begin{tikzpicture}".toList ++ ['\n']),
    (endLayoutSig ++ ['\n']),
    (endInsetSig ++ ['\n']),
    ("after".toList ++ ['\n']) ]

/-- A document with a marker line outside every region: the source
scan does not see it, the whole-document scan does. -/
def exDocOutsideMarker : List Line :=
  [ (backslashTok ++ ['\n']),
    ("tikzsetnextfilename".toList ++ ['{'] ++ "qcpict9".toList ++ ['}', '\n']),
    (r"\begin_inset ERT".toList ++ ['\n']),
    (beginLayoutSig ++ ['\n']),
    (backslashTok ++ ['\n']),
    ("begin{tikzpicture}".toList ++ ['\n']),
    (endLayoutSig ++ ['\n']),
    (endInsetSig ++ ['\n']) ]

/-- A document whose single region carries the same marker index in
two different sub-blocks; the rewrite keeps both. -/
def exDocDupMarkers : List Line :=
  [ (r"\begin_inset ERT".toList ++ ['\n']),
    (beginLayoutSig ++ ['\n']),
    (backslashTok ++ ['\n']),
    ("tikzsetnextfilename".toList ++ ['{'] ++ "qcpict3".toList ++ ['}', '\n']),
    (endLayoutSig ++ ['\n']),
    (beginLayoutSig ++ ['\n']),
    (backslashTok ++ ['\n']),
    ("tikzsetnextfilename".toList ++ ['{'] ++ "qcpict3".toList ++ ['}', '\n']),
    (endLayoutSig ++ ['\n']),
    (endInsetSig ++ ['\n']) ]

/-- A region with one qualifying sub-block, used at block level. -/
def exRegion : List Line :=
  [ (r"\begin_inset ERT".toList ++ ['\n']),
    (beginLayoutSig ++ ['\n']),
    (backslashTok ++ ['\n']),
    ("begin{tikzpicture}".toList ++ ['\n']),
    (endLayoutSig ++ ['\n']),
    (endInsetSig ++ ['\n']) ]

/-- A document with an unterminated region: a region-begin line at
position 2 with no region-end line anywhere after it. -/
def exDocUnterminated : List Line :=
  [ (r"\begin_inset ERT".toList ++ ['\n']),
    (endInsetSig ++ ['\n']),
    (r"\begin_inset ERT".toList ++ ['\n']),
    (beginLayoutSig ++ ['\n']),
    (backslashTok ++ ['\n']),
    ("begin{tikzpicture}".toList ++ ['\n']),
    (endLayoutSig ++ ['\n']) ]

/-- A document with one region and no qualifying sub-block. -/
def exDocNoEnv : List Line :=
  [ (r"\begin_inset ERT".toList ++ ['\n']),
    (beginLayoutSig ++ ['\n']),
    ("plain text".toList ++ ['\n']),
    (endLayoutSig ++ ['\n']),
    (endInsetSig ++ ['\n']) ]

/-- Sub-block list: a qualifying sub-block whose predecessor carries a
marker under a foreign name stem. -/
def exBlocksForeignMarker : List Block :=
  [ [ (beginLayoutSig ++ ['\n']),
      (backslashTok ++ ['\n']),
      ("tikzsetnextfilename".toList ++ ['{'] ++ "other8".toList ++ ['}', '\n']),
      (endLayoutSig ++ ['\n']) ],
    [ (beginLayoutSig ++ ['\n']),
      (backslashTok ++ ['\n']),
      ("begin{quantikz}".toList ++ ['\n']),
      (endLayoutSig ++ ['\n']) ] ]

/-
  Claim C1: segmentation partitions the region lines exactly.
-/

theorem flatten_splitAux (ls : List Line) :
    ∀ (cur : List Line) (fl : Bool), (splitAux ls cur fl).flatten = cur ++ ls := by
  induction ls with
  | nil =>
    intro cur fl
    by_cases hc : cur.isEmpty
    · simp [splitAux, hc, List.isEmpty_iff.mp hc]
    · simp [splitAux, hc]
  | cons line rest ih =>
    intro cur fl
    by_cases hb : containsSub beginLayoutSig line
    · by_cases hc : cur.isEmpty
      · simp [splitAux, hb, hc, ih, List.isEmpty_iff.mp hc]
      · simp [splitAux, hb, hc, ih]
    · by_cases he : containsSub endLayoutSig line && fl
      · simp [splitAux, hb, he, ih]
      · simp [splitAux, hb, he, ih]

/-- C1: for every list of region lines, flattening the result of
segmenting it into sub-blocks yields exactly the original line list:
no line is duplicated, dropped, or reordered by segmentation alone. -/
theorem c1_segment_partition (ls : List Line) :
    join_layout_blocks (split_into_layout_blocks ls) = ls := by
  simp [join_layout_blocks, split_into_layout_blocks, flatten_splitAux]

/-
  Basic facts about the literal-matching primitives.
-/

theorem stripLit_append (x y s : List Char) :
    stripLit (x ++ y) s = (stripLit x s).bind (stripLit y) := by
  induction x generalizing s with
  | nil => simp [stripLit]
  | cons p ps ih =>
    cases s with
    | nil => simp [stripLit]
    | cons c cs =>
      simp only [List.cons_append, stripLit]
      by_cases h : c = p
      · simp [h, ih]
      · simp [h]

theorem stripLit_self_append (x r : List Char) : stripLit x (x ++ r) = some r := by
  induction x with
  | nil => simp [stripLit]
  | cons p ps ih => simp [stripLit, ih]

theorem stripLit_eq_some (p : List Char) :
    ∀ s r : List Char, stripLit p s = some r → s = p ++ r := by
  induction p with
  | nil =>
    intro s r h
    simp only [stripLit, Option.some.injEq] at h
    simp [h]
  | cons c cs ih =>
    intro s r h
    cases s with
    | nil => simp [stripLit] at h
    | cons d ds =>
      simp only [stripLit] at h
      by_cases hd : d = c
      · rw [if_pos hd] at h
        simp [hd, ih ds r h]
      · rw [if_neg hd] at h
        exact absurd h (by simp)

theorem containsSub_head_false (c : Char) (p l : List Char) (h : c ∉ l) :
    containsSub (c :: p) l = false := by
  induction l with
  | nil => simp [containsSub, stripLit]
  | cons d ds ih =>
    have hdc : d ≠ c := fun e => h (e ▸ List.mem_cons_self d ds)
    simp only [containsSub, stripLit, if_neg hdc]
    exact ih (fun m => h (List.mem_cons_of_mem d m))

/-
  Decimal printing and parsing.
-/

theorem natDigitsGo_acc (fuel : Nat) :
    ∀ (n : Nat) (acc : List Char),
      natDigitsGo fuel n acc = natDigitsGo fuel n [] ++ acc := by
  induction fuel with
  | zero => intro n acc; simp [natDigitsGo]
  | succ f ih =>
    intro n acc
    by_cases h : n < 10
    · simp [natDigitsGo, h]
    · simp only [natDigitsGo, if_neg h]
      rw [ih (n / 10) (digitChar (n % 10) :: acc), ih (n / 10) [digitChar (n % 10)]]
      simp

theorem digitVal_digitChar (d : Nat) (h : d < 10) : digitVal (digitChar d) = d := by
  interval_cases d <;> decide

theorem isDigit_digitChar (d : Nat) (h : d < 10) : (digitChar d).isDigit = true := by
  interval_cases d <;> decide

theorem digitsToNat_append_single (a : List Char) (c : Char) :
    digitsToNat (a ++ [c]) = digitsToNat a * 10 + digitVal c := by
  simp [digitsToNat, List.foldl_append]

theorem digitsToNat_go (fuel : Nat) :
    ∀ n : Nat, n ≤ fuel → digitsToNat (natDigitsGo fuel n []) = n := by
  induction fuel with
  | zero =>
    intro n hn
    have h0 : n = 0 := Nat.le_zero.mp hn
    subst h0
    decide
  | succ f ih =>
    intro n hn
    by_cases h : n < 10
    · simp only [natDigitsGo, if_pos h]
      simpa [digitsToNat] using digitVal_digitChar n h
    · have hdiv : n / 10 < n := Nat.div_lt_self (by omega) (by norm_num)
      simp only [natDigitsGo, if_neg h]
      rw [natDigitsGo_acc, digitsToNat_append_single, ih (n / 10) (by omega),
        digitVal_digitChar (n % 10) (Nat.mod_lt n (by norm_num))]
      have := Nat.div_add_mod n 10
      omega

theorem digitsToNat_natDigits (n : Nat) : digitsToNat (natDigits n) = n :=
  digitsToNat_go n n le_rfl

theorem natDigitsGo_ne_nil (fuel : Nat) :
    ∀ (n : Nat) (acc : List Char), natDigitsGo fuel n acc ≠ [] := by
  induction fuel with
  | zero => intro n acc; simp [natDigitsGo]
  | succ f ih =>
    intro n acc
    by_cases h : n < 10
    · simp [natDigitsGo, h]
    · simp only [natDigitsGo, if_neg h]
      exact ih (n / 10) (digitChar (n % 10) :: acc)

theorem natDigits_ne_nil (n : Nat) : natDigits n ≠ [] :=
  natDigitsGo_ne_nil n n []

theorem natDigitsGo_all_digit (fuel : Nat) :
    ∀ (n : Nat) (acc : List Char), n ≤ fuel → (∀ c ∈ acc, c.isDigit = true) →
      ∀ c ∈ natDigitsGo fuel n acc, c.isDigit = true := by
  induction fuel with
  | zero =>
    intro n acc hn hacc c hc
    have h0 : n = 0 := Nat.le_zero.mp hn
    subst h0
    simp only [natDigitsGo] at hc
    rcases List.mem_cons.mp hc with h | h
    · subst h; decide
    · exact hacc c h
  | succ f ih =>
    intro n acc hn hacc c hc
    by_cases h : n < 10
    · simp only [natDigitsGo, if_pos h] at hc
      rcases List.mem_cons.mp hc with h2 | h2
      · subst h2; exact isDigit_digitChar n h
      · exact hacc c h2
    · have hdiv : n / 10 < n := Nat.div_lt_self (by omega) (by norm_num)
      simp only [natDigitsGo, if_neg h] at hc
      refine ih (n / 10) (digitChar (n % 10) :: acc) (by omega) ?_ c hc
      intro d hd
      rcases List.mem_cons.mp hd with h2 | h2
      · subst h2; exact isDigit_digitChar (n % 10) (Nat.mod_lt n (by norm_num))
      · exact hacc d h2

theorem natDigits_all_digit (n : Nat) : ∀ c ∈ natDigits n, c.isDigit = true :=
  natDigitsGo_all_digit n n [] le_rfl (by simp)

theorem isDigit_ne_backslash {c : Char} (h : c.isDigit = true) : c ≠ '\\' := by
  intro e; subst e; exact absurd h (by decide)

theorem isDigit_ne_rbrace {c : Char} (h : c.isDigit = true) : c ≠ '}' := by
  intro e; subst e; exact absurd h (by decide)

theorem isAlphanum_ne_backslash {c : Char} (h : c.isAlphanum = true) : c ≠ '\\' := by
  intro e; subst e; exact absurd h (by decide)

theorem isAlphanum_ne_rbrace {c : Char} (h : c.isAlphanum = true) : c ≠ '}' := by
  intro e; subst e; exact absurd h (by decide)

/-
  Equivalence of the index-based insertion loop with the reference
  walk.
-/

theorem insertIdx_append_len (done t : List Block) (M : Block) :
    (done ++ t).insertIdx done.length M = done ++ M :: t := by
  induction done with
  | nil => simp
  | cons d ds ih => simpa [List.insertIdx_succ_cons] using ih

theorem get_append_len (done : List Block) (b : Block) (t : List Block)
    (h : done.length < (done ++ b :: t).length) :
    (done ++ b :: t).get ⟨done.length, h⟩ = b := by
  rw [List.get_eq_getElem, List.getElem_append_right (Nat.le_refl done.length)]
  simp

theorem get_append_pred (done t : List Block) (hne : done ≠ [])
    (h : done.length - 1 < (done ++ t).length) :
    (done ++ t).get ⟨done.length - 1, h⟩ = done.getLast hne := by
  have hlt : done.length - 1 < done.length := by
    cases done with
    | nil => exact absurd rfl hne
    | cons x xs => simp
  rw [List.get_eq_getElem, List.getElem_append_left hlt, List.getLast_eq_getElem]

theorem getLast?_append_pair (xs : List Block) (M b : Block) :
    (xs ++ [M, b]).getLast? = some b := by
  rw [show xs ++ [M, b] = (xs ++ [M]) ++ [b] by simp]
  exact List.getLast?_concat _

/-- The index-based mutating loop of the source equals the reference
walk: at loop position `i`, the list decomposes as processed part plus
remaining part, the processed part only grows, and the block the
source reads at `i - 1` is the last processed block. -/
theorem insertLoop_eq_walk (pfx : List Char) :
    ∀ (todo done : List Block) (n : Nat),
      insertLoop pfx todo.length (done ++ todo) done.length n =
        (done ++ (walk pfx done.getLast? todo n).1, (walk pfx done.getLast? todo n).2) := by
  intro todo
  induction todo with
  | nil => intro done n; simp [insertLoop, walk]
  | cons b rest ih =>
    intro done n
    have hlen : done.length < (done ++ b :: rest).length := by simp
    have hget : (done ++ b :: rest).get ⟨done.length, hlen⟩ = b := get_append_len done b rest hlen
    have hskip : ∀ m : Nat,
        insertLoop pfx rest.length (done ++ b :: rest) (done.length + 1) m =
          (done ++ (b :: (walk pfx (some b) rest m).1), (walk pfx (some b) rest m).2) := by
      intro m
      have step := ih (done ++ [b]) m
      rw [List.append_assoc, List.singleton_append, List.getLast?_concat] at step
      simpa [List.append_assoc] using step
    have hins : ∀ m : Nat,
        insertLoop pfx rest.length
            ((done ++ b :: rest).insertIdx done.length (make_tikz_layout pfx m))
            (done.length + 2) (m + 1) =
          (done ++ (make_tikz_layout pfx m :: b :: (walk pfx (some b) rest (m + 1)).1),
            (walk pfx (some b) rest (m + 1)).2) := by
      intro m
      have step := ih (done ++ [make_tikz_layout pfx m, b]) (m + 1)
      rw [List.append_assoc, getLast?_append_pair] at step
      rw [insertIdx_append_len done (b :: rest) (make_tikz_layout pfx m),
        show done ++ make_tikz_layout pfx m :: b :: rest =
          (done ++ [make_tikz_layout pfx m, b]) ++ rest by simp,
        show done.length + 2 = (done ++ [make_tikz_layout pfx m, b]).length by simp]
      simpa [List.append_assoc] using step
    show insertLoop pfx (rest.length + 1) (done ++ b :: rest) done.length n = _
    rw [insertLoop, dif_pos hlen, hget]
    by_cases henv : has_environment b
    · rw [if_pos henv]
      by_cases htk : has_tikzset b
      · rw [if_pos htk]
        simp only [walk, if_pos henv, if_pos htk]
        exact hskip n
      · rw [if_neg htk]
        simp only [walk, if_pos henv, if_neg htk]
        by_cases hd : done = []
        · subst hd
          rw [dif_neg (by simp)]
          rw [show prevHasTikz (List.getLast? ([] : List Block)) = false from rfl]
          simp only [Bool.false_eq_true, if_false]
          simpa using hins n
        · have hp : 0 < done.length := List.length_pos.mpr hd
          rw [dif_pos hp]
          have hpred : (done ++ b :: rest).get ⟨done.length - 1, by omega⟩ =
              done.getLast hd := get_append_pred done (b :: rest) hd (by omega)
          rw [hpred, List.getLast?_eq_getLast done hd]
          rw [show prevHasTikz (some (done.getLast hd)) = has_tikzset (done.getLast hd)
            from rfl]
          by_cases hpt : has_tikzset (done.getLast hd)
          · rw [if_pos hpt, if_pos hpt]
            exact hskip n
          · rw [if_neg hpt, if_neg hpt]
            exact hins n
    · rw [if_neg henv]
      simp only [walk, if_neg henv]
      exact hskip n

/-- Corollary at the region level: the source region rewriter is the
reference walk over the segmented region. -/
theorem insert_tikz_in_ert_eq_walk (ert : List Line) (pfx : List Char) (n : Nat) :
    insert_tikz_in_ert ert pfx n =
      (join_layout_blocks (walk pfx none (split_into_layout_blocks ert) n).1,
        (walk pfx none (split_into_layout_blocks ert) n).2) := by
  have h := insertLoop_eq_walk pfx (split_into_layout_blocks ert) [] n
  simp only [List.nil_append, List.length_nil, List.getLast?_nil] at h
  simp [insert_tikz_in_ert, h]

/-
  Small list utilities for the scanners.
-/

theorem takeWhile_append_stop (p : Char → Bool) (u : List Char) (y : Char) (v : List Char)
    (hu : ∀ x ∈ u, p x = true) (hy : p y = false) :
    (u ++ y :: v).takeWhile p = u := by
  induction u with
  | nil => simp [List.takeWhile, hy]
  | cons a as ih =>
    have ha : p a = true := hu a (List.mem_cons_self a as)
    simp only [List.cons_append, List.takeWhile_cons, ha, if_true]
    rw [ih (fun x hx => hu x (List.mem_cons_of_mem a hx))]

theorem dropWhile_append_stop (p : Char → Bool) (u : List Char) (y : Char) (v : List Char)
    (hu : ∀ x ∈ u, p x = true) (hy : p y = false) :
    (u ++ y :: v).dropWhile p = y :: v := by
  induction u with
  | nil => simp [List.dropWhile, hy]
  | cons a as ih =>
    have ha : p a = true := hu a (List.mem_cons_self a as)
    simp only [List.cons_append, List.dropWhile_cons, ha, if_true]
    exact ih (fun x hx => hu x (List.mem_cons_of_mem a hx))

theorem dropWhile_ne_of_mem (a : Char) (w : List Char) (h : a ∈ w) :
    ∃ v, w.dropWhile (fun c => c ≠ a) = a :: v := by
  induction w with
  | nil => cases h
  | cons x xs ih =>
    by_cases hx : x = a
    · subst hx
      exact ⟨xs, by simp [List.dropWhile_cons]⟩
    · have hmem : a ∈ xs := by
        rcases List.mem_cons.mp h with h1 | h1
        · exact absurd h1.symm hx
        · exact h1
      rcases ih hmem with ⟨v, hv⟩
      refine ⟨v, ?_⟩
      simpa [List.dropWhile_cons, hx] using hv

theorem containsSub_of_stripLit (p l : List Char) (h : (stripLit p l).isSome) :
    containsSub p l = true := by
  cases l with
  | nil =>
    simp only [containsSub]
    exact h
  | cons c cs =>
    simp only [containsSub, Bool.or_eq_true]
    exact Or.inl h

theorem containsSub_self_append (p r : List Char) : containsSub p (p ++ r) = true :=
  containsSub_of_stripLit p (p ++ r) (by rw [stripLit_self_append]; rfl)

/-
  Decompositions of the literal tokens, used when a scan has to step
  through a semi-concrete text.
-/

theorem backslashTok_eq : backslashTok = '\\' :: "backslash".toList := rfl

theorem beginLayoutSig_eq : beginLayoutSig = '\\' :: "begin_layout Plain Layout".toList := rfl

theorem endLayoutSig_eq : endLayoutSig = '\\' :: "end_layout".toList := rfl

theorem ertBeginSig_eq : ertBeginSig = '\\' :: "begin_inset ERT".toList := rfl

theorem endInsetSig_eq : endInsetSig = '\\' :: "end_inset".toList := rfl

/-
  The joined text of a synthesized marker sub-block, flattened into
  its append structure.
-/

theorem joinLines_make_tikz (pfx : List Char) (idx : Nat) :
    joinLines (make_tikz_layout pfx idx) =
      ('\\' :: ("begin_layout Plain Layout".toList ++ ['\n', '\n'])) ++
        (backslashTok ++
          ('\n' :: ('\n' :: ('t' :: ("ikzsetnextfilename".toList ++
            ('{' :: (pfx ++ (natDigits idx ++
              ('}' :: ('\n' :: ('\n' :: (endLayoutSig ++ ['\n'])))))))))))) := by
  rw [make_tikz_layout, show ("tikzsetnextfilename".toList : List Char) =
    't' :: "ikzsetnextfilename".toList from rfl, beginLayoutSig_eq]
  simp [joinLines]

/-
  Single-step and skipping lemmas for the three searches.
-/

theorem matchEnvAt_cons_ne (c : Char) (cs : List Char) (h : c ≠ '\\') :
    matchEnvAt (c :: cs) = false := by
  rw [matchEnvAt, backslashTok_eq]
  simp [stripLit, h]

theorem matchTikzsetAt_cons_ne (c : Char) (cs : List Char) (h : c ≠ '\\') :
    matchTikzsetAt (c :: cs) = false := by
  rw [matchTikzsetAt, backslashTok_eq]
  simp [stripLit, h]

theorem matchIdxAt_cons_ne (pfx : List Char) (c : Char) (cs : List Char) (h : c ≠ '\\') :
    matchIdxAt pfx (c :: cs) = none := by
  rw [matchIdxAt, backslashTok_eq]
  simp [stripLit, h]

theorem searchEnv_append_no_bs (a : List Char) (s : List Char)
    (ha : ∀ c ∈ a, c ≠ '\\') : searchEnv (a ++ s) = searchEnv s := by
  induction a with
  | nil => rfl
  | cons c cs ih =>
    have hc : c ≠ '\\' := ha c (List.mem_cons_self c cs)
    show (matchEnvAt (c :: (cs ++ s)) || searchEnv (cs ++ s)) = searchEnv s
    rw [matchEnvAt_cons_ne c (cs ++ s) hc, Bool.false_or]
    exact ih (fun x hx => ha x (List.mem_cons_of_mem c hx))

theorem searchTikz_append_no_bs (a : List Char) (s : List Char)
    (ha : ∀ c ∈ a, c ≠ '\\') : searchTikz (a ++ s) = searchTikz s := by
  induction a with
  | nil => rfl
  | cons c cs ih =>
    have hc : c ≠ '\\' := ha c (List.mem_cons_self c cs)
    show (matchTikzsetAt (c :: (cs ++ s)) || searchTikz (cs ++ s)) = searchTikz s
    rw [matchTikzsetAt_cons_ne c (cs ++ s) hc, Bool.false_or]
    exact ih (fun x hx => ha x (List.mem_cons_of_mem c hx))

theorem searchTikz_of_match (s : List Char) (h : matchTikzsetAt s = true) :
    ∀ a, searchTikz (a ++ s) = true := by
  intro a
  induction a with
  | nil =>
    cases s with
    | nil => exact absurd h (by decide)
    | cons c cs => simp [searchTikz, h]
  | cons c cs ih => simp [searchTikz, ih]

/-
  Classifier facts about the synthesized marker sub-block.
-/

theorem tkb_shape (w : List Char) :
    tikzsetKeywordBrace ++ w = 't' :: ("ikzsetnextfilename".toList ++ ('{' :: w)) := by
  show ("tikzsetnextfilename".toList ++ ['{']) ++ w = _
  rw [show ("tikzsetnextfilename".toList : List Char) =
    't' :: "ikzsetnextfilename".toList from rfl]
  simp

theorem takeWhile_cons_not_empty (q : Char → Bool) (c : Char) (cs : List Char)
    (h : q c = true) : ((c :: cs).takeWhile q).isEmpty = false := by
  simp [List.takeWhile_cons, h]

theorem matchTikzsetAt_marker (pfx : List Char) (idx : Nat) (tail : List Char)
    (h : pfx.head? ≠ some '}') :
    matchTikzsetAt (backslashTok ++
      ('\n' :: ('\n' :: ('t' :: ("ikzsetnextfilename".toList ++
        ('{' :: (pfx ++ (natDigits idx ++ ('}' :: tail))))))))) = true := by
  have hdrop : ('\n' :: ('\n' :: ('t' :: ("ikzsetnextfilename".toList ++
        ('{' :: (pfx ++ (natDigits idx ++ ('}' :: tail)))))))).dropWhile isPySpace =
      't' :: ("ikzsetnextfilename".toList ++
        ('{' :: (pfx ++ (natDigits idx ++ ('}' :: tail))))) := by
    rw [List.dropWhile_cons, if_pos (show isPySpace '\n' = true from by decide)]
    rw [List.dropWhile_cons, if_pos (show isPySpace '\n' = true from by decide)]
    rw [List.dropWhile_cons, if_neg (show ¬ isPySpace 't' = true from by decide)]
  have hstr : stripLit tikzsetKeywordBrace
      ('t' :: ("ikzsetnextfilename".toList ++
        ('{' :: (pfx ++ (natDigits idx ++ ('}' :: tail)))))) =
      some (pfx ++ (natDigits idx ++ ('}' :: tail))) := by
    rw [← tkb_shape, stripLit_self_append]
  have hmem : '}' ∈ pfx ++ (natDigits idx ++ ('}' :: tail)) := by
    refine List.mem_append.mpr (Or.inr ?_)
    exact List.mem_append.mpr (Or.inr (List.mem_cons_self _ _))
  rcases dropWhile_ne_of_mem '}' _ hmem with ⟨v, hv⟩
  simp only [matchTikzsetAt, stripLit_self_append, hdrop, hstr, hv]
  simp only [Bool.and_eq_true, Bool.not_eq_true']
  refine ⟨?_, trivial⟩
  rcases hpfx : pfx with _ | ⟨p, ps⟩
  · rcases List.exists_cons_of_ne_nil (natDigits_ne_nil idx) with ⟨d, ds, hds⟩
    have hd : d.isDigit = true := by
      have hall := natDigits_all_digit idx
      rw [hds] at hall
      exact hall d (List.mem_cons_self _ _)
    rw [List.nil_append, hds, List.cons_append]
    exact takeWhile_cons_not_empty _ d _ (decide_eq_true (isDigit_ne_rbrace hd))
  · have hp : p ≠ '}' := by
      rw [hpfx] at h
      simpa using h
    rw [List.cons_append]
    exact takeWhile_cons_not_empty _ p _ (decide_eq_true hp)

theorem has_tikzset_make_tikz (pfx : List Char) (idx : Nat)
    (h : pfx.head? ≠ some '}') :
    has_tikzset (make_tikz_layout pfx idx) = true := by
  rw [has_tikzset, joinLines_make_tikz]
  exact searchTikz_of_match _ (matchTikzsetAt_marker pfx idx _ h) _

/-
  The marker sub-block contains no environment opening.
-/

theorem stripLit_cons_eq (p : Char) (ps cs : List Char) :
    stripLit (p :: ps) (p :: cs) = stripLit ps cs := by
  simp [stripLit]

theorem stripLit_cons_ne (p c : Char) (ps cs : List Char) (h : c ≠ p) :
    stripLit (p :: ps) (c :: cs) = none := by
  simp [stripLit, h]

theorem stripLit_bsTok_begin_layout (X : List Char) :
    stripLit backslashTok ('\\' :: ("begin_layout Plain Layout".toList ++ X)) = none := by
  rw [backslashTok_eq,
    show ("backslash".toList : List Char) = 'b' :: ('a' :: "ckslash".toList) from rfl,
    show ("begin_layout Plain Layout".toList : List Char) =
      'b' :: ('e' :: "gin_layout Plain Layout".toList) from rfl,
    List.cons_append, List.cons_append]
  rw [stripLit_cons_eq, stripLit_cons_eq]
  exact stripLit_cons_ne _ _ _ _ (by decide)

theorem stripLit_bsTok_end_layout (X : List Char) :
    stripLit backslashTok ('\\' :: ("end_layout".toList ++ X)) = none := by
  rw [backslashTok_eq,
    show ("backslash".toList : List Char) = 'b' :: "ackslash".toList from rfl,
    show ("end_layout".toList : List Char) = 'e' :: "nd_layout".toList from rfl,
    List.cons_append]
  rw [stripLit_cons_eq]
  exact stripLit_cons_ne _ _ _ _ (by decide)

theorem stripLit_bsTok_self (w : List Char) :
    stripLit backslashTok ('\\' :: ("backslash".toList ++ w)) = some w := by
  rw [backslashTok_eq, stripLit_cons_eq]
  exact stripLit_self_append _ _

theorem matchEnvAt_false_of_stripLit (s : List Char) (h : stripLit backslashTok s = none) :
    matchEnvAt s = false := by
  simp only [matchEnvAt, h]

theorem matchTikzsetAt_false_of_stripLit (s : List Char)
    (h : stripLit backslashTok s = none) : matchTikzsetAt s = false := by
  simp only [matchTikzsetAt, h]

theorem matchIdxAt_none_of_stripLit (pfx s : List Char)
    (h : stripLit backslashTok s = none) : matchIdxAt pfx s = none := by
  simp only [matchIdxAt, h]

theorem dropWhile_two_nl (R : List Char) :
    (('\n' :: ('\n' :: ('t' :: R)))).dropWhile isPySpace = 't' :: R := by
  rw [List.dropWhile_cons, if_pos (show isPySpace '\n' = true from by decide)]
  rw [List.dropWhile_cons, if_pos (show isPySpace '\n' = true from by decide)]
  rw [List.dropWhile_cons, if_neg (show ¬ isPySpace 't' = true from by decide)]

theorem matchEnvAt_after_bsTok (R : List Char) :
    matchEnvAt ('\\' :: ("backslash".toList ++ ('\n' :: ('\n' :: ('t' :: R))))) = false := by
  have h1 : stripLit envTikzpicture ('t' :: R) = none := by
    rw [show (envTikzpicture : List Char) = 'b' :: "egin{tikzpicture}".toList from rfl]
    exact stripLit_cons_ne _ _ _ _ (by decide)
  have h2 : stripLit envQuantikz ('t' :: R) = none := by
    rw [show (envQuantikz : List Char) = 'b' :: "egin{quantikz}".toList from rfl]
    exact stripLit_cons_ne _ _ _ _ (by decide)
  simp only [matchEnvAt, stripLit_bsTok_self, dropWhile_two_nl, h1, h2]
  rfl

theorem matchEnvAt_bs_begin_layout (X : List Char) :
    matchEnvAt ('\\' :: ("begin_layout Plain Layout".toList ++ X)) = false :=
  matchEnvAt_false_of_stripLit _ (stripLit_bsTok_begin_layout X)

theorem searchEnv_cons_false (c : Char) (cs : List Char)
    (h : matchEnvAt (c :: cs) = false) : searchEnv (c :: cs) = searchEnv cs := by
  show (matchEnvAt (c :: cs) || searchEnv cs) = searchEnv cs
  rw [h, Bool.false_or]

theorem searchEnv_cons_ne (c : Char) (cs : List Char) (h : c ≠ '\\') :
    searchEnv (c :: cs) = searchEnv cs :=
  searchEnv_cons_false c cs (matchEnvAt_cons_ne c cs h)

theorem has_environment_make_tikz (pfx : List Char) (idx : Nat)
    (hb : ∀ c ∈ pfx, c ≠ '\\') :
    has_environment (make_tikz_layout pfx idx) = false := by
  have hds : ∀ c ∈ natDigits idx, c ≠ '\\' :=
    fun c hc => isDigit_ne_backslash (natDigits_all_digit idx c hc)
  rw [has_environment, joinLines_make_tikz]
  rw [List.cons_append, List.append_assoc]
  rw [searchEnv_cons_false _ _ (matchEnvAt_bs_begin_layout _)]
  rw [searchEnv_append_no_bs ("begin_layout Plain Layout".toList) _ (by decide)]
  rw [searchEnv_append_no_bs (['\n', '\n']) _ (by decide)]
  rw [backslashTok_eq, List.cons_append]
  rw [searchEnv_cons_false _ _ (matchEnvAt_after_bsTok _)]
  rw [searchEnv_append_no_bs ("backslash".toList) _ (by decide)]
  rw [searchEnv_cons_ne '\n' _ (by decide), searchEnv_cons_ne '\n' _ (by decide),
    searchEnv_cons_ne 't' _ (by decide)]
  rw [searchEnv_append_no_bs ("ikzsetnextfilename".toList) _ (by decide)]
  rw [searchEnv_cons_ne '{' _ (by decide)]
  rw [searchEnv_append_no_bs pfx _ hb]
  rw [searchEnv_append_no_bs (natDigits idx) _ hds]
  rw [searchEnv_cons_ne '}' _ (by decide), searchEnv_cons_ne '\n' _ (by decide),
    searchEnv_cons_ne '\n' _ (by decide)]
  rw [endLayoutSig_eq, List.cons_append]
  rw [searchEnv_cons_false _ _ (matchEnvAt_false_of_stripLit _ (stripLit_bsTok_end_layout _))]
  rw [searchEnv_append_no_bs ("end_layout".toList) _ (by decide)]
  rw [searchEnv_cons_ne '\n' _ (by decide)]
  rfl

/-
  The finditer scan and its fuel discipline.
-/

theorem length_dropWhile_le (p : Char → Bool) (l : List Char) :
    (l.dropWhile p).length ≤ l.length := by
  induction l with
  | nil => simp
  | cons c cs ih =>
    rw [List.dropWhile_cons]
    by_cases h : p c
    · rw [if_pos h]
      exact le_trans ih (by simp)
    · rw [if_neg h]

theorem matchIdxAt_length (pfx s : List Char) (nr : Nat × List Char)
    (h : matchIdxAt pfx s = some nr) : nr.2.length < s.length := by
  simp only [matchIdxAt] at h
  split at h
  · exact absurd h (by simp)
  next rest heq0 =>
    split at h
    · exact absurd h (by simp)
    next r2 heq1 =>
      split at h
      · exact absurd h (by simp)
      next hemp =>
        split at h
        next r3 heq2 =>
          have e0 := stripLit_eq_some _ _ _ heq0
          have lb : backslashTok.length = 10 := rfl
          have l0 : s.length = 10 + rest.length := by
            rw [e0, List.length_append, lb]
          have l1 : (rest.dropWhile isPySpace).length ≤ rest.length :=
            length_dropWhile_le _ _
          have e1 := stripLit_eq_some _ _ _ heq1
          have l2 : (rest.dropWhile isPySpace).length =
              (tikzsetKeywordBrace ++ pfx).length + r2.length := by
            rw [e1, List.length_append]
          have l3 : (r2.dropWhile Char.isDigit).length ≤ r2.length :=
            length_dropWhile_le _ _
          rw [heq2] at l3
          simp only [List.length_cons] at l3
          simp only [Option.some.injEq] at h
          subst h
          simp only []
          omega
        next heq2 => exact absurd h (by simp)

theorem matchIdxAt_nil (pfx : List Char) : matchIdxAt pfx [] = none :=
  matchIdxAt_none_of_stripLit pfx [] (by rw [backslashTok_eq]; rfl)

theorem findIndicesAux_nil (pfx : List Char) : ∀ fuel, findIndicesAux pfx fuel [] = [] := by
  intro fuel
  cases fuel <;> rfl

theorem findIndicesAux_cons_none (pfx : List Char) (c : Char) (cs : List Char) (fuel : Nat)
    (h : matchIdxAt pfx (c :: cs) = none) :
    findIndicesAux pfx (fuel + 1) (c :: cs) = findIndicesAux pfx fuel cs := by
  simp [findIndicesAux, h]

theorem findIndicesAux_cons_some (pfx : List Char) (c : Char) (cs : List Char) (fuel : Nat)
    (nr : Nat × List Char) (h : matchIdxAt pfx (c :: cs) = some nr) :
    findIndicesAux pfx (fuel + 1) (c :: cs) = nr.1 :: findIndicesAux pfx fuel nr.2 := by
  simp [findIndicesAux, h]

theorem findIndicesAux_fuel (pfx : List Char) :
    ∀ (fuel : Nat) (s : List Char), s.length ≤ fuel →
      findIndicesAux pfx fuel s = findIndicesAux pfx s.length s := by
  intro fuel
  induction fuel using Nat.strong_induction_on with
  | _ fuel ih =>
    intro s hs
    match fuel, s with
    | _, [] => rw [findIndicesAux_nil, findIndicesAux_nil]
    | f + 1, c :: cs =>
      rw [List.length_cons]
      have hcs : cs.length ≤ f := by
        rw [List.length_cons] at hs
        omega
      cases hm : matchIdxAt pfx (c :: cs) with
      | none =>
        rw [findIndicesAux_cons_none pfx c cs f hm,
          findIndicesAux_cons_none pfx c cs cs.length hm]
        exact ih f (by omega) cs hcs
      | some nr =>
        rw [findIndicesAux_cons_some pfx c cs f nr hm,
          findIndicesAux_cons_some pfx c cs cs.length nr hm]
        have hlen := matchIdxAt_length pfx (c :: cs) nr hm
        rw [List.length_cons] at hlen
        rw [ih f (by omega) nr.2 (by omega), ih cs.length (by omega) nr.2 (by omega)]

theorem findIndicesAux_skip (pfx : List Char) (a b : List Char) (fuel : Nat)
    (ha : ∀ c ∈ a, c ≠ '\\') :
    findIndicesAux pfx (a.length + fuel) (a ++ b) = findIndicesAux pfx fuel b := by
  induction a with
  | nil => simp
  | cons c cs ih =>
    have hc : c ≠ '\\' := ha c (List.mem_cons_self c cs)
    have hl : (c :: cs).length + fuel = (cs.length + fuel) + 1 := by
      rw [List.length_cons]
      omega
    rw [hl, List.cons_append,
      findIndicesAux_cons_none pfx c (cs ++ b) _ (matchIdxAt_cons_ne pfx c _ hc)]
    exact ih (fun x hx => ha x (List.mem_cons_of_mem c hx))

theorem findIndicesAux_skip_len (pfx : List Char) (a b : List Char)
    (ha : ∀ c ∈ a, c ≠ '\\') :
    findIndicesAux pfx (a ++ b).length (a ++ b) = findIndicesAux pfx b.length b := by
  rw [List.length_append]
  exact findIndicesAux_skip pfx a b b.length ha

theorem findIndicesAux_cons_none_len (pfx : List Char) (c : Char) (cs : List Char)
    (h : matchIdxAt pfx (c :: cs) = none) :
    findIndicesAux pfx (c :: cs).length (c :: cs) = findIndicesAux pfx cs.length cs := by
  rw [List.length_cons]
  exact findIndicesAux_cons_none pfx c cs cs.length h

theorem findIndicesAux_match_len (pfx : List Char) (c : Char) (cs : List Char)
    (nr : Nat × List Char) (h : matchIdxAt pfx (c :: cs) = some nr) :
    findIndicesAux pfx (c :: cs).length (c :: cs) =
      nr.1 :: findIndicesAux pfx nr.2.length nr.2 := by
  rw [List.length_cons, findIndicesAux_cons_some pfx c cs cs.length nr h]
  have hlen := matchIdxAt_length pfx (c :: cs) nr h
  rw [List.length_cons] at hlen
  rw [findIndicesAux_fuel pfx cs.length nr.2 (by omega)]

theorem matchIdxAt_marker (pfx : List Char) (idx : Nat) (tail : List Char) :
    matchIdxAt pfx ('\\' :: ("backslash".toList ++
      ('\n' :: ('\n' :: ('t' :: ("ikzsetnextfilename".toList ++
        ('{' :: (pfx ++ (natDigits idx ++ ('}' :: tail)))))))))) = some (idx, tail) := by
  have h0 := stripLit_bsTok_self
    ('\n' :: ('\n' :: ('t' :: ("ikzsetnextfilename".toList ++
      ('{' :: (pfx ++ (natDigits idx ++ ('}' :: tail))))))))
  have hdrop := dropWhile_two_nl
    ("ikzsetnextfilename".toList ++ ('{' :: (pfx ++ (natDigits idx ++ ('}' :: tail)))))
  have hstr : stripLit (tikzsetKeywordBrace ++ pfx)
      ('t' :: ("ikzsetnextfilename".toList ++
        ('{' :: (pfx ++ (natDigits idx ++ ('}' :: tail)))))) =
      some (natDigits idx ++ ('}' :: tail)) := by
    rw [show 't' :: ("ikzsetnextfilename".toList ++
        ('{' :: (pfx ++ (natDigits idx ++ ('}' :: tail))))) =
      (tikzsetKeywordBrace ++ pfx) ++ (natDigits idx ++ ('}' :: tail)) by
        rw [tkb_shape]
        simp]
    exact stripLit_self_append _ _
  have htake : (natDigits idx ++ ('}' :: tail)).takeWhile Char.isDigit = natDigits idx :=
    takeWhile_append_stop _ _ _ _ (natDigits_all_digit idx) (by decide)
  have hdrop2 : (natDigits idx ++ ('}' :: tail)).dropWhile Char.isDigit = '}' :: tail :=
    dropWhile_append_stop _ _ _ _ (natDigits_all_digit idx) (by decide)
  have hne : (natDigits idx).isEmpty = false := by
    rcases List.exists_cons_of_ne_nil (natDigits_ne_nil idx) with ⟨d, ds, hds⟩
    simp [hds]
  simp only [matchIdxAt, h0, hdrop, hstr, htake, hdrop2, hne, Bool.false_eq_true,
    if_false, digitsToNat_natDigits]

theorem get_tikz_indices_make_tikz (pfx : List Char) (idx : Nat) :
    get_tikz_indices (make_tikz_layout pfx idx) pfx = [idx] := by
  simp only [get_tikz_indices]
  rw [joinLines_make_tikz, List.cons_append, List.append_assoc]
  rw [findIndicesAux_cons_none_len pfx _ _
    (matchIdxAt_none_of_stripLit pfx _ (stripLit_bsTok_begin_layout _))]
  rw [findIndicesAux_skip_len pfx ("begin_layout Plain Layout".toList) _ (by decide)]
  rw [findIndicesAux_skip_len pfx (['\n', '\n']) _ (by decide)]
  rw [backslashTok_eq, List.cons_append]
  rw [findIndicesAux_match_len pfx _ _ _ (matchIdxAt_marker pfx idx _)]
  rw [findIndicesAux_cons_none_len pfx _ _ (matchIdxAt_cons_ne pfx '\n' _ (by decide))]
  rw [findIndicesAux_cons_none_len pfx _ _ (matchIdxAt_cons_ne pfx '\n' _ (by decide))]
  rw [endLayoutSig_eq, List.cons_append]
  rw [findIndicesAux_cons_none_len pfx _ _
    (matchIdxAt_none_of_stripLit pfx _ (stripLit_bsTok_end_layout _))]
  rw [findIndicesAux_skip_len pfx ("end_layout".toList) _ (by decide)]
  rw [findIndicesAux_cons_none_len pfx _ _ (matchIdxAt_cons_ne pfx '\n' _ (by decide))]
  rfl

/-- C10: the synthesizer's output is recognized by the classifier
exactly as a marker: for every alphanumeric name stem and every index
at least one, the four-line block produced by `make_tikz_layout`
satisfies `has_tikzset`, its `get_tikz_indices` under the same stem is
exactly the singleton of the index, and `has_environment` is false. -/
theorem c10_synthesizer_recognized (pfx : List Char) (idx : Nat)
    (halnum : ∀ c ∈ pfx, c.isAlphanum = true) (_hidx : 1 ≤ idx) :
    has_tikzset (make_tikz_layout pfx idx) = true ∧
      get_tikz_indices (make_tikz_layout pfx idx) pfx = [idx] ∧
      has_environment (make_tikz_layout pfx idx) = false := by
  refine ⟨?_, get_tikz_indices_make_tikz pfx idx, ?_⟩
  · apply has_tikzset_make_tikz
    cases pfx with
    | nil => simp
    | cons p ps =>
      have hp : p ≠ '}' := isAlphanum_ne_rbrace (halnum p (List.mem_cons_self p ps))
      simp [hp]
  · exact has_environment_make_tikz pfx idx
      (fun c hc => isAlphanum_ne_backslash (halnum c hc))

/-- Witness for C10 at the default stem and index seven. -/
theorem c10_witness :
    (∀ c ∈ ("qcpict".toList), c.isAlphanum = true) ∧ 1 ≤ 7 ∧
      (has_tikzset (make_tikz_layout ("qcpict".toList) 7) = true ∧
        get_tikz_indices (make_tikz_layout ("qcpict".toList) 7) ("qcpict".toList) = [7] ∧
        has_environment (make_tikz_layout ("qcpict".toList) 7) = false) :=
  ⟨by decide, by decide,
    c10_synthesizer_recognized ("qcpict".toList) 7 (by decide) (by decide)⟩

/-
  The instrumented walks agree with the reference walk.
-/

theorem walkG_erase (pfx : List Char) : ∀ (bs : List Block) (prev : Option Block) (n : Nat),
    ((walkG pfx prev bs n).1.map (fun ob => ob.1.toList ++ [ob.2])).flatten =
        (walk pfx prev bs n).1 ∧
      (walkG pfx prev bs n).2 = (walk pfx prev bs n).2 := by
  intro bs
  induction bs with
  | nil => intro prev n; exact ⟨rfl, rfl⟩
  | cons b rest ih =>
    intro prev n
    simp only [walkG, walk]
    split_ifs with h1 h2 h3
    · rcases ih (some b) n with ⟨e1, e2⟩
      exact ⟨by simp [e1], e2⟩
    · rcases ih (some b) n with ⟨e1, e2⟩
      exact ⟨by simp [e1], e2⟩
    · rcases ih (some b) (n + 1) with ⟨e1, e2⟩
      exact ⟨by simp [e1], e2⟩
    · rcases ih (some b) n with ⟨e1, e2⟩
      exact ⟨by simp [e1], e2⟩

theorem walkG_snd (pfx : List Char) : ∀ (bs : List Block) (prev : Option Block) (n : Nat),
    ((walkG pfx prev bs n).1.map Prod.snd) = bs := by
  intro bs
  induction bs with
  | nil => intro prev n; rfl
  | cons b rest ih =>
    intro prev n
    simp only [walkG]
    split_ifs with h1 h2 h3 <;> simp [ih (some b)]

theorem walkG_none_of_suppressed (pfx : List Char) :
    ∀ (bs : List Block) (prev : Option Block) (n i : Nat),
      i < bs.length →
      has_environment (bs.getD i []) = true →
      (has_tikzset (bs.getD i []) = true ∨
        (i = 0 ∧ prevHasTikz prev = true) ∨
        (0 < i ∧ has_tikzset (bs.getD (i - 1) []) = true)) →
      ((walkG pfx prev bs n).1.getD i (none, [])).1 = none := by
  intro bs
  induction bs with
  | nil => intro prev n i hi; simp at hi
  | cons b rest ih =>
    intro prev n i hi henv hsup
    cases i with
    | zero =>
      simp only [List.getD_cons_zero] at henv hsup
      have hsup2 : has_tikzset b = true ∨ prevHasTikz prev = true := by
        rcases hsup with h | ⟨_, h⟩ | ⟨h, _⟩
        · exact Or.inl h
        · exact Or.inr h
        · exact absurd h (by omega)
      simp only [walkG, if_pos henv]
      by_cases htk : has_tikzset b
      · rw [if_pos htk]
        rfl
      · have hpv : prevHasTikz prev = true := by
          rcases hsup2 with h | h
          · exact absurd h htk
          · exact h
        rw [if_neg htk, if_pos hpv]
        rfl
    | succ j =>
      have step : ∀ (x : Option Block × Block) (l : List (Option Block × Block)),
          ((x :: l).getD (j + 1) (none, ([] : Block))) = l.getD j (none, []) := by
        intro x l
        simp [List.getD_cons_succ]
      have hi2 : j < rest.length := by
        rw [List.length_cons] at hi
        omega
      have henv2 : has_environment (rest.getD j []) = true := by
        simpa [List.getD_cons_succ] using henv
      have hsup2 : has_tikzset (rest.getD j []) = true ∨
          (j = 0 ∧ prevHasTikz (some b) = true) ∨
          (0 < j ∧ has_tikzset (rest.getD (j - 1) []) = true) := by
        rcases hsup with h | ⟨h0, _⟩ | ⟨hpos, h⟩
        · rw [List.getD_cons_succ] at h
          exact Or.inl h
        · exact absurd h0 (by omega)
        · cases j with
          | zero =>
            refine Or.inr (Or.inl ⟨rfl, ?_⟩)
            simpa [prevHasTikz] using h
          | succ k =>
            refine Or.inr (Or.inr ⟨by omega, ?_⟩)
            simpa [List.getD_cons_succ] using h
      simp only [walkG]
      split_ifs with h1 h2 h3
      · rw [step _ _]
        exact ih (some b) n j hi2 henv2 hsup2
      · rw [step _ _]
        exact ih (some b) n j hi2 henv2 hsup2
      · rw [step _ _]
        exact ih (some b) (n + 1) j hi2 henv2 hsup2
      · rw [step _ _]
        exact ih (some b) n j hi2 henv2 hsup2

/-- C6: suppression is governed by the stem-agnostic marker check: for
every qualifying sub-block, if the sub-block itself or its immediately
preceding sub-block contains any text matching the marker keyword
pattern — regardless of the marker's stem or numeric value — the
instrumented walk records no inserted marker before that sub-block
(and the walk keeps every original sub-block, in order). -/
theorem c6_suppression (pfx : List Char) (bs : List Block) (n i : Nat)
    (hi : i < bs.length)
    (henv : has_environment (bs.getD i []) = true)
    (hsup : has_tikzset (bs.getD i []) = true ∨
      (0 < i ∧ has_tikzset (bs.getD (i - 1) []) = true)) :
    ((walkG pfx none bs n).1.getD i (none, [])).1 = none ∧
      ((walkG pfx none bs n).1.map Prod.snd) = bs := by
  refine ⟨walkG_none_of_suppressed pfx bs none n i hi henv ?_, walkG_snd pfx bs none n⟩
  rcases hsup with h | h
  · exact Or.inl h
  · exact Or.inr (Or.inr h)

/-- Witness for C6: a qualifying sub-block whose predecessor carries a
marker under a foreign stem is left alone by the walk. -/
theorem c6_witness :
    (1 < exBlocksForeignMarker.length ∧
      has_environment (exBlocksForeignMarker.getD 1 []) = true ∧
      (has_tikzset (exBlocksForeignMarker.getD 1 []) = true ∨
        (0 < 1 ∧ has_tikzset (exBlocksForeignMarker.getD 0 []) = true))) ∧
      (((walkG ("qcpict".toList) none exBlocksForeignMarker 1).1.getD 1 (none, [])).1 = none ∧
        ((walkG ("qcpict".toList) none exBlocksForeignMarker 1).1.map Prod.snd) =
          exBlocksForeignMarker) :=
  ⟨⟨by decide, by decide, by decide⟩,
    c6_suppression ("qcpict".toList) exBlocksForeignMarker 1 1 (by decide) (by decide)
      (by decide)⟩

/-
  Counter facts.
-/

theorem walk_counter_mono (pfx : List Char) :
    ∀ (bs : List Block) (prev : Option Block) (n : Nat), n ≤ (walk pfx prev bs n).2 := by
  intro bs
  induction bs with
  | nil => intro prev n; exact le_rfl
  | cons b rest ih =>
    intro prev n
    simp only [walk]
    split_ifs with h1 h2 h3
    · exact ih (some b) n
    · exact ih (some b) n
    · exact le_trans (Nat.le_succ n) (ih (some b) (n + 1))
    · exact ih (some b) n

theorem walkN_eq_range (pfx : List Char) :
    ∀ (bs : List Block) (prev : Option Block) (n : Nat),
      walkN prev bs n = List.range' n ((walk pfx prev bs n).2 - n) := by
  intro bs
  induction bs with
  | nil => intro prev n; simp [walkN, walk]
  | cons b rest ih =>
    intro prev n
    simp only [walkN, walk]
    split_ifs with h1 h2 h3
    · exact ih (some b) n
    · exact ih (some b) n
    · have hc : n + 1 ≤ (walk pfx (some b) rest (n + 1)).2 := walk_counter_mono pfx rest _ _
      rw [ih (some b) (n + 1)]
      rw [show (walk pfx (some b) rest (n + 1)).2 - n =
        ((walk pfx (some b) rest (n + 1)).2 - (n + 1)) + 1 by omega]
      rfl
    · exact ih (some b) n

/-
  Settledness: the walk's output needs no further insertion, and the
  walk leaves settled lists unchanged.
-/

theorem settled_walk_id (pfx : List Char) :
    ∀ (bs : List Block) (prev : Option Block) (n : Nat), Settled prev bs →
      walk pfx prev bs n = (bs, n) := by
  intro bs
  induction bs with
  | nil => intro prev n _; rfl
  | cons b rest ih =>
    intro prev n hs
    rcases hs with ⟨hcond, hrest⟩
    by_cases henv : has_environment b
    · rcases hcond henv with htk | hpv
      · simp only [walk, if_pos henv, if_pos htk, ih (some b) n hrest]
      · by_cases htk : has_tikzset b
        · simp only [walk, if_pos henv, if_pos htk, ih (some b) n hrest]
        · simp only [walk, if_pos henv, if_neg htk, if_pos hpv, ih (some b) n hrest]
    · simp only [walk, if_neg henv, ih (some b) n hrest]

theorem walk_post_settled (pfx : List Char) (hpfx : pfx.head? ≠ some '}') :
    ∀ (bs : List Block) (prev : Option Block) (n : Nat),
      Settled prev ((walk pfx prev bs n).1) := by
  intro bs
  induction bs with
  | nil => intro prev n; exact trivial
  | cons b rest ih =>
    intro prev n
    simp only [walk]
    split_ifs with h1 h2 h3
    · exact ⟨fun _ => Or.inl h2, ih (some b) n⟩
    · exact ⟨fun _ => Or.inr h3, ih (some b) n⟩
    · refine ⟨fun _ => Or.inl (has_tikzset_make_tikz pfx n hpfx), ?_, ih (some b) (n + 1)⟩
      intro _
      exact Or.inr (by simp [prevHasTikz, has_tikzset_make_tikz pfx n hpfx])
    · exact ⟨fun he => absurd he h1, ih (some b) n⟩

theorem settled_getD (bs : List Block) :
    ∀ (prev : Option Block), Settled prev bs →
      ∀ i, i < bs.length → has_environment (bs.getD i []) = true →
        has_tikzset (bs.getD i []) = true ∨
          (i = 0 ∧ prevHasTikz prev = true) ∨
          (0 < i ∧ has_tikzset (bs.getD (i - 1) []) = true) := by
  induction bs with
  | nil => intro prev _ i hi; simp at hi
  | cons b rest ih =>
    intro prev hs i hi henv
    rcases hs with ⟨hcond, hrest⟩
    cases i with
    | zero =>
      simp only [List.getD_cons_zero] at henv ⊢
      rcases hcond henv with h | h
      · exact Or.inl h
      · refine Or.inr (Or.inl ⟨?_, h⟩)
        simp
    | succ j =>
      have hj : j < rest.length := by
        rw [List.length_cons] at hi
        omega
      have henv2 : has_environment (rest.getD j []) = true := by
        simpa [List.getD_cons_succ] using henv
      rcases ih (some b) hrest j hj henv2 with h | ⟨hj0, hpv⟩ | ⟨hpos, h⟩
      · left
        simpa [List.getD_cons_succ] using h
      · refine Or.inr (Or.inr ⟨by omega, ?_⟩)
        subst hj0
        simpa [prevHasTikz] using hpv
      · refine Or.inr (Or.inr ⟨by omega, ?_⟩)
        cases j with
        | zero => exact absurd hpos (by omega)
        | succ k =>
          simpa [List.getD_cons_succ] using h

/-- The insertion loop's output as the reference walk's output. -/
theorem rewrittenBlocks_eq_walk (ert_lines : List Line) (pfx : List Char) (n : Nat) :
    rewrittenBlocks ert_lines pfx n =
      (walk pfx none (split_into_layout_blocks ert_lines) n).1 := by
  have h := insertLoop_eq_walk pfx (split_into_layout_blocks ert_lines) [] n
  simp only [List.nil_append, List.length_nil, List.getLast?_nil] at h
  rw [rewrittenBlocks, h]

/-- C3 (amended): provided the configured stem does not begin with a
closing brace, every sub-block of the rewritten region that carries a
qualifying environment opening carries a marker itself or is
immediately preceded by a sub-block that does. -/
theorem c3_corrected_marker_before_env (pfx : List Char) (R : List Line) (n i : Nat)
    (hpfx : pfx.head? ≠ some '}')
    (hi : i < (rewrittenBlocks R pfx n).length)
    (henv : has_environment ((rewrittenBlocks R pfx n).getD i []) = true) :
    has_tikzset ((rewrittenBlocks R pfx n).getD i []) = true ∨
      (0 < i ∧ has_tikzset ((rewrittenBlocks R pfx n).getD (i - 1) []) = true) := by
  rw [rewrittenBlocks_eq_walk] at hi henv ⊢
  have hs := walk_post_settled pfx hpfx (split_into_layout_blocks R) none n
  rcases settled_getD _ none hs i hi henv with h | ⟨_, hpv⟩ | h
  · exact Or.inl h
  · exact absurd hpv (by simp [prevHasTikz])
  · exact Or.inr h

/-- Counterexample to C3 as stated: with the stem consisting of a
single closing brace, the synthesized sub-block does not match the
marker pattern, so the qualifying sub-block of the rewritten region is
not preceded by a sub-block containing a marker. -/
theorem c3_counterexample :
    has_environment ((rewrittenBlocks exRegion (['}']) 1).getD 2 []) = true ∧
      ¬ (has_tikzset ((rewrittenBlocks exRegion (['}']) 1).getD 2 []) = true ∨
        (0 < 2 ∧ has_tikzset ((rewrittenBlocks exRegion (['}']) 1).getD 1 []) = true)) := by
  decide

/-- Witness for C3 at the default stem. -/
theorem c3_witness :
    (("qcpict".toList).head? ≠ some '}' ∧
      2 < (rewrittenBlocks exRegion ("qcpict".toList) 1).length ∧
      has_environment ((rewrittenBlocks exRegion ("qcpict".toList) 1).getD 2 []) = true) ∧
      (has_tikzset ((rewrittenBlocks exRegion ("qcpict".toList) 1).getD 2 []) = true ∨
        (0 < 2 ∧
          has_tikzset ((rewrittenBlocks exRegion ("qcpict".toList) 1).getD 1 []) = true)) :=
  ⟨⟨by decide, by decide, by decide⟩,
    c3_corrected_marker_before_env ("qcpict".toList) exRegion 1 2 (by decide) (by decide)
      (by decide)⟩

/-
  Stepping lemmas for the segmenter.
-/

theorem splitAux_begin_step (l : Line) (w : List Line) (cur : List Line) (fl : Bool)
    (hl : lineBegin l = true) :
    splitAux (l :: w) cur fl =
      (if cur.isEmpty then [] else [cur]) ++ splitAux w [l] true := by
  have hl' : containsSub beginLayoutSig l = true := hl
  simp [splitAux, hl']

theorem splitAux_end_step (l : Line) (w : List Line) (cur : List Line)
    (hb : lineBegin l = false) (he : lineEnd l = true) :
    splitAux (l :: w) cur true = (cur ++ [l]) :: splitAux w [] false := by
  have hb' : containsSub beginLayoutSig l = false := hb
  have he' : containsSub endLayoutSig l = true := he
  simp [splitAux, hb', he']

theorem splitAux_else_step (l : Line) (w : List Line) (cur : List Line) (fl : Bool)
    (hb : lineBegin l = false) (he : (lineEnd l && fl) = false) :
    splitAux (l :: w) cur fl = splitAux w (cur ++ [l]) fl := by
  have hb' : containsSub beginLayoutSig l = false := hb
  have he' : (containsSub endLayoutSig l && fl) = false := he
  simp [splitAux, hb', he']

theorem splitAux_mids (ms : List Line) (hms : ∀ m ∈ ms, lineNoSig m = true) :
    ∀ (w : List Line) (cur : List Line) (fl : Bool),
      splitAux (ms ++ w) cur fl = splitAux w (cur ++ ms) fl := by
  induction ms with
  | nil => intro w cur fl; simp
  | cons m mt ih =>
    intro w cur fl
    have hm := hms m (List.mem_cons_self m mt)
    have hb : lineBegin m = false := by
      simp only [lineNoSig, Bool.and_eq_true, Bool.not_eq_true'] at hm
      exact hm.1
    have he : lineEnd m = false := by
      simp only [lineNoSig, Bool.and_eq_true, Bool.not_eq_true'] at hm
      exact hm.2
    rw [List.cons_append, splitAux_else_step m (mt ++ w) cur fl hb (by rw [he]; rfl)]
    rw [ih (fun x hx => hms x (List.mem_cons_of_mem m hx)) w (cur ++ [m]) fl]
    simp

theorem splitAux_unstr (us : List Line) (hus : ∀ l ∈ us, lineBegin l = false) :
    ∀ (w : List Line) (cur : List Line),
      splitAux (us ++ w) cur false = splitAux w (cur ++ us) false := by
  induction us with
  | nil => intro w cur; simp
  | cons u ut ih =>
    intro w cur
    have hb : lineBegin u = false := hus u (List.mem_cons_self u ut)
    rw [List.cons_append, splitAux_else_step u (ut ++ w) cur false hb (by simp)]
    rw [ih (fun x hx => hus x (List.mem_cons_of_mem u hx)) w (cur ++ [u])]
    simp

theorem splitAux_closed (L : Block) (hL : ClosedB L) :
    ∀ (w : List Line) (cur : List Line) (fl : Bool),
      splitAux (L ++ w) cur fl =
        (if cur.isEmpty then [] else [cur]) ++ (L :: splitAux w [] false) := by
  rcases hL with ⟨l0, ms, le, rfl, h0, hms, he, hbe⟩
  intro w cur fl
  rw [List.cons_append, splitAux_begin_step _ _ _ _ h0, List.append_assoc,
    splitAux_mids ms hms, List.singleton_append, splitAux_end_step le w _ hbe he]
  simp

theorem splitAux_open_end (L : Block) (hL : OpenB L) (cur : List Line) (fl : Bool) :
    splitAux L cur fl = (if cur.isEmpty then [] else [cur]) ++ [L] := by
  rcases hL with ⟨l0, ms, rfl, h0, hms⟩
  rw [splitAux_begin_step _ _ _ _ h0,
    show (ms : List Line) = ms ++ [] from (List.append_nil ms).symm,
    splitAux_mids ms hms]
  simp [splitAux]

theorem splitAux_unstr_end (U : Block) (hU : UnstrB U) :
    splitAux U [] false = [U] := by
  rcases hU with ⟨hne, hno⟩
  rw [show (U : List Line) = U ++ [] from (List.append_nil U).symm,
    splitAux_unstr U hno [] []]
  simp [splitAux, List.isEmpty_iff, hne]

theorem splitAux_head_of_cur (ls : List Line) :
    ∀ (c0 : Line) (curt : List Line) (fl : Bool),
      ∃ bt rest2, splitAux ls (c0 :: curt) fl = (c0 :: bt) :: rest2 := by
  induction ls with
  | nil =>
    intro c0 curt fl
    exact ⟨curt, [], by simp [splitAux]⟩
  | cons l w ih =>
    intro c0 curt fl
    by_cases hb : lineBegin l = true
    · refine ⟨curt, splitAux w [l] true, ?_⟩
      rw [splitAux_begin_step l w _ fl hb]
      simp
    · have hb' : lineBegin l = false := by
        simpa using hb
      by_cases he : (lineEnd l && fl) = true
      · rcases Bool.and_eq_true_iff.mp he with ⟨he1, hfl⟩
        subst hfl
        refine ⟨curt ++ [l], splitAux w [] false, ?_⟩
        rw [splitAux_end_step l w _ hb' he1]
        simp
      · rw [splitAux_else_step l w _ fl hb' (by simpa using he), List.cons_append]
        exact ih c0 (curt ++ [l]) fl

theorem splitAux_begin_step_nilcur (l : Line) (w : List Line) (fl : Bool)
    (hl : lineBegin l = true) :
    splitAux (l :: w) [] fl = splitAux w [l] true := by
  rw [splitAux_begin_step l w [] fl hl]
  simp

theorem splitAux_begin_step_cons (l : Line) (w : List Line) (c0 : Line) (ct : List Line)
    (fl : Bool) (hl : lineBegin l = true) :
    splitAux (l :: w) (c0 :: ct) fl = (c0 :: ct) :: splitAux w [l] true := by
  rw [splitAux_begin_step l w (c0 :: ct) fl hl]
  simp

theorem headIsBegin_elim (bs : List Block) (h : headIsBegin bs) :
    ∃ l0 bt rest2, bs = (l0 :: bt) :: rest2 ∧ lineBegin l0 = true := by
  cases bs with
  | nil => cases h
  | cons hd tl =>
    cases hd with
    | nil => cases h
    | cons l0 bt => exact ⟨l0, bt, tl, rfl, h⟩

/-
  The segmenter inverts flattening on valid segmentations, produces
  only valid segmentations, and the walk preserves validity.
-/

theorem validSeg_split_flatten : ∀ (bs : List Block), ValidSeg bs →
    splitAux bs.flatten [] false = bs := by
  intro bs
  induction bs with
  | nil => intro _; rfl
  | cons b rest ih =>
    intro hv
    rcases hv with ⟨hb, hrest⟩
    rw [List.flatten_cons]
    rcases hb with hc | ⟨hou, hnext⟩
    · rw [splitAux_closed b hc (rest.flatten) [] false]
      simp [ih hrest]
    · rcases hnext with hnil | hbeg
      · subst hnil
        simp only [List.flatten_nil, List.append_nil]
        rcases hou with ho | hu
        · rw [splitAux_open_end b ho [] false]
          simp
        · rw [splitAux_unstr_end b hu]
      · rcases headIsBegin_elim rest hbeg with ⟨rl0, rbt, rrest, hre, hrb⟩
        have hflat : rest.flatten = rl0 :: (rbt ++ rrest.flatten) := by
          rw [hre]
          simp
        have hrw : splitAux rest.flatten [] false =
            splitAux (rbt ++ rrest.flatten) [rl0] true := by
          rw [hflat, splitAux_begin_step rl0 _ [] false hrb]
          simp
        rcases hou with ho | hu
        · rcases ho with ⟨l0, ms, rfl, h0, hms⟩
          rw [List.cons_append, splitAux_begin_step_nilcur _ _ _ h0,
            splitAux_mids ms hms, List.singleton_append, hflat,
            splitAux_begin_step_cons rl0 _ _ _ true hrb, hrw.symm.trans (ih hrest)]
        · rcases hu with ⟨hne, hno⟩
          rcases List.exists_cons_of_ne_nil hne with ⟨c0, ct, rfl⟩
          rw [splitAux_unstr _ hno, List.nil_append, hflat,
            splitAux_begin_step_cons rl0 _ _ _ false hrb, hrw.symm.trans (ih hrest)]

theorem validSeg_split_join (bs : List Block) (hv : ValidSeg bs) :
    split_into_layout_blocks (join_layout_blocks bs) = bs :=
  validSeg_split_flatten bs hv

theorem splitAux_valid : ∀ (ls : List Line) (cur : List Line) (fl : Bool),
    (fl = true → ∃ l0 ms, cur = l0 :: ms ∧ lineBegin l0 = true ∧
      ∀ m ∈ ms, lineNoSig m = true) →
    (fl = false → ∀ l ∈ cur, lineBegin l = false) →
    ValidSeg (splitAux ls cur fl) := by
  intro ls
  induction ls with
  | nil =>
    intro cur fl hT hF
    by_cases hc : cur.isEmpty
    · simp [splitAux, hc, ValidSeg]
    · have hne : cur ≠ [] := by
        simpa [List.isEmpty_iff] using hc
      rw [show splitAux [] cur fl = [cur] by simp [splitAux, hc]]
      cases fl with
      | false =>
        exact ⟨Or.inr ⟨Or.inr ⟨hne, hF rfl⟩, Or.inl rfl⟩, trivial⟩
      | true =>
        rcases hT rfl with ⟨l0, ms, rfl, h0, hms⟩
        exact ⟨Or.inr ⟨Or.inl ⟨l0, ms, rfl, h0, hms⟩, Or.inl rfl⟩, trivial⟩
  | cons l w ih =>
    intro cur fl hT hF
    by_cases hb : lineBegin l = true
    · have hS : ValidSeg (splitAux w [l] true) :=
        ih [l] true (fun _ => ⟨l, [], rfl, hb, by simp⟩) (by simp)
      cases cur with
      | nil =>
        rw [splitAux_begin_step_nilcur l w fl hb]
        exact hS
      | cons c0 ct =>
        rw [splitAux_begin_step_cons l w c0 ct fl hb]
        have hhd : headIsBegin (splitAux w [l] true) := by
          rcases splitAux_head_of_cur w l [] true with ⟨bt, rest2, heq⟩
          rw [heq]
          exact hb
        refine ⟨Or.inr ⟨?_, Or.inr hhd⟩, hS⟩
        cases fl with
        | false => exact Or.inr ⟨by simp, hF rfl⟩
        | true =>
          rcases hT rfl with ⟨l0, ms, hcur, h0, hms⟩
          exact Or.inl ⟨l0, ms, hcur, h0, hms⟩
    · have hb' : lineBegin l = false := by simpa using hb
      by_cases he : (lineEnd l && fl) = true
      · rcases Bool.and_eq_true_iff.mp he with ⟨he1, hfl⟩
        subst hfl
        rw [splitAux_end_step l w cur hb' he1]
        rcases hT rfl with ⟨l0, ms, rfl, h0, hms⟩
        refine ⟨Or.inl ⟨l0, ms, l, by simp, h0, hms, he1, hb'⟩,
          ih [] false (by simp) (by simp)⟩
      · rw [splitAux_else_step l w cur fl hb' (by simpa using he)]
        apply ih (cur ++ [l]) fl
        · intro hfl
          subst hfl
          rcases hT rfl with ⟨l0, ms, rfl, h0, hms⟩
          refine ⟨l0, ms ++ [l], by simp, h0, ?_⟩
          intro m hm
          rcases List.mem_append.mp hm with h | h
          · exact hms m h
          · have hl : m = l := by simpa using h
            subst hl
            have he2 : lineEnd m = false := by
              simpa using he
            simp [lineNoSig, hb', he2]
        · intro hfl
          subst hfl
          intro x hx
          rcases List.mem_append.mp hx with h | h
          · exact hF rfl x h
          · have hl : x = l := by simpa using h
            subst hl
            exact hb'

theorem split_valid (ls : List Line) : ValidSeg (split_into_layout_blocks ls) :=
  splitAux_valid ls [] false (by simp) (by simp)

/-
  The synthesized marker sub-block is a closed layout block, so the
  walk preserves valid segmentations.
-/

theorem lineNoSig_of_no_bs (l : Line) (h : '\\' ∉ l) : lineNoSig l = true := by
  have h1 : lineBegin l = false := by
    rw [lineBegin, beginLayoutSig_eq]
    exact containsSub_head_false _ _ _ h
  have h2 : lineEnd l = false := by
    rw [lineEnd, endLayoutSig_eq]
    exact containsSub_head_false _ _ _ h
  simp [lineNoSig, h1, h2]

theorem no_bs_tikz_line (pfx : List Char) (idx : Nat) (hb : ∀ c ∈ pfx, c ≠ '\\') :
    '\\' ∉ ("tikzsetnextfilename".toList ++ ['{'] ++ pfx ++ natDigits idx ++ ['}', '\n']) := by
  intro hmem
  rcases List.mem_append.mp hmem with h | h
  · rcases List.mem_append.mp h with h2 | h2
    · rcases List.mem_append.mp h2 with h3 | h3
      · rcases List.mem_append.mp h3 with h4 | h4
        · exact absurd h4 (by decide)
        · exact absurd h4 (by decide)
      · exact hb '\\' h3 rfl
    · exact isDigit_ne_backslash (natDigits_all_digit idx '\\' h2) rfl
  · exact absurd h (by decide)

theorem ClosedB_make_tikz (pfx : List Char) (idx : Nat) (hb : ∀ c ∈ pfx, c ≠ '\\') :
    ClosedB (make_tikz_layout pfx idx) := by
  refine ⟨beginLayoutSig ++ ['\n'],
    [backslashTok ++ ['\n'],
      "tikzsetnextfilename".toList ++ ['{'] ++ pfx ++ natDigits idx ++ ['}', '\n']],
    endLayoutSig ++ ['\n'], rfl, ?_, ?_, ?_, ?_⟩
  · exact containsSub_self_append _ _
  · intro m hm
    rcases List.mem_cons.mp hm with h | h
    · subst h
      decide
    · have hm2 : m = "tikzsetnextfilename".toList ++ ['{'] ++ pfx ++
          natDigits idx ++ ['}', '\n'] := by
        simpa using h
      subst hm2
      exact lineNoSig_of_no_bs _ (no_bs_tikz_line pfx idx hb)
  · exact containsSub_self_append _ _
  · decide

theorem headIsBegin_make (pfx : List Char) (n : Nat) (r : List Block) :
    headIsBegin (make_tikz_layout pfx n :: r) := by
  show lineBegin (beginLayoutSig ++ ['\n']) = true
  exact containsSub_self_append _ _

theorem walk_head_begin (pfx : List Char) (bs : List Block) (prev : Option Block) (n : Nat)
    (h : headIsBegin bs) : headIsBegin ((walk pfx prev bs n).1) := by
  rcases headIsBegin_elim bs h with ⟨l0, bt, rest2, rfl, hl0⟩
  simp only [walk]
  split_ifs with h1 h2 h3
  · exact hl0
  · exact hl0
  · exact headIsBegin_make pfx n _
  · exact hl0

theorem valid_walk (pfx : List Char) (hbpfx : ∀ c ∈ pfx, c ≠ '\\') :
    ∀ (bs : List Block) (prev : Option Block) (n : Nat), ValidSeg bs →
      ValidSeg ((walk pfx prev bs n).1) := by
  intro bs
  induction bs with
  | nil => intro prev n _; exact trivial
  | cons b rest ih =>
    intro prev n hv
    rcases hv with ⟨hb, hrest⟩
    have hcond : ∀ m : Nat,
        ClosedB b ∨ ((OpenB b ∨ UnstrB b) ∧
          ((walk pfx (some b) rest m).1 = [] ∨ headIsBegin ((walk pfx (some b) rest m).1))) := by
      intro m
      rcases hb with hc | ⟨hou, hnx⟩
      · exact Or.inl hc
      · refine Or.inr ⟨hou, ?_⟩
        rcases hnx with hnil | hbeg
        · subst hnil
          exact Or.inl rfl
        · exact Or.inr (walk_head_begin pfx rest (some b) m hbeg)
    simp only [walk]
    split_ifs with h1 h2 h3
    · exact ⟨hcond n, ih (some b) n hrest⟩
    · exact ⟨hcond n, ih (some b) n hrest⟩
    · refine ⟨Or.inl (ClosedB_make_tikz pfx n hbpfx), hcond (n + 1), ih (some b) (n + 1) hrest⟩
    · exact ⟨hcond n, ih (some b) n hrest⟩

/-- Running the region rewriter on its own output makes no change and
returns the counter it was given. -/
theorem region_second_run (R : List Line) (pfx : List Char) (n n2 : Nat)
    (hb : ∀ c ∈ pfx, c ≠ '\\') (hh : pfx.head? ≠ some '}') :
    insert_tikz_in_ert (insert_tikz_in_ert R pfx n).1 pfx n2 =
      ((insert_tikz_in_ert R pfx n).1, n2) := by
  rw [insert_tikz_in_ert_eq_walk R pfx n]
  show insert_tikz_in_ert
      (join_layout_blocks (walk pfx none (split_into_layout_blocks R) n).1) pfx n2 =
    (join_layout_blocks (walk pfx none (split_into_layout_blocks R) n).1, n2)
  have hvalid : ValidSeg (walk pfx none (split_into_layout_blocks R) n).1 :=
    valid_walk pfx hb _ none n (split_valid R)
  have hsplit := validSeg_split_join _ hvalid
  have hsettled : Settled none (walk pfx none (split_into_layout_blocks R) n).1 :=
    walk_post_settled pfx hh _ none n
  rw [insert_tikz_in_ert_eq_walk, hsplit, settled_walk_id pfx _ none n2 hsettled]

/-
  Structural lemmas for the region locator.
-/

theorem firstSplitBy_none_iff (p : Line → Bool) :
    ∀ ls : List Line, firstSplitBy p ls = none ↔ ∀ l ∈ ls, p l = false := by
  intro ls
  induction ls with
  | nil => simp [firstSplitBy]
  | cons l w ih =>
    by_cases hl : p l = true
    · simp [firstSplitBy, hl]
    · have hl' : p l = false := by simpa using hl
      simp only [firstSplitBy, hl', Bool.false_eq_true, if_false]
      cases hw : firstSplitBy p w with
      | none =>
        simp only [List.mem_cons]
        constructor
        · intro _ x hx
          rcases hx with h | h
          · subst h; exact hl'
          · exact ih.mp hw x h
        · intro _; trivial
      | some g =>
        simp only [List.mem_cons]
        constructor
        · intro h; cases h
        · intro hall
          have h0 : firstSplitBy p w = none := ih.mpr (fun x hx => hall x (Or.inr hx))
          rw [hw] at h0
          cases h0

theorem firstSplitBy_some (p : Line → Bool) :
    ∀ (ls a : List Line) (x : Line) (b : List Line),
      firstSplitBy p ls = some (a, x, b) →
      ls = a ++ x :: b ∧ p x = true ∧ ∀ l ∈ a, p l = false := by
  intro ls
  induction ls with
  | nil => intro a x b h; cases h
  | cons l w ih =>
    intro a x b h
    by_cases hl : p l = true
    · rw [firstSplitBy, if_pos hl] at h
      have h2 : ([] : List Line) = a ∧ l = x ∧ w = b := by
        simpa [Prod.ext_iff] using h
      obtain ⟨ha, hx, hb⟩ := h2
      subst ha
      subst hx
      subst hb
      exact ⟨rfl, hl, by simp⟩
    · have hl' : p l = false := by simpa using hl
      rw [firstSplitBy, if_neg (by simp [hl'])] at h
      cases hw : firstSplitBy p w with
      | none => rw [hw] at h; cases h
      | some g =>
        rcases g with ⟨ga, gx, gb⟩
        rw [hw] at h
        have h2 : l :: ga = a ∧ gx = x ∧ gb = b := by
          simpa [Prod.ext_iff] using h
        obtain ⟨ha, hx, hb⟩ := h2
        subst ha
        subst hx
        subst hb
        rcases ih ga gx gb hw with ⟨hw1, hw2, hw3⟩
        refine ⟨by rw [hw1]; rfl, hw2, ?_⟩
        intro m hm
        rcases List.mem_cons.mp hm with h | h
        · subst h; exact hl'
        · exact hw3 m h

theorem findAux_nil (i : Nat) (ins : Bool) (st : Nat) :
    findErtBlocksAux [] i ins st = [] := rfl

theorem findAux_begin_step (bl : Line) (hb : containsSub ertBeginSig bl = true)
    (w : List Line) (i st : Nat) :
    findErtBlocksAux (bl :: w) i false st = findErtBlocksAux w (i + 1) true i := by
  simp [findErtBlocksAux, hb]

theorem findAux_end_step (el : Line) (he : containsSub endInsetSig el = true)
    (w : List Line) (i st : Nat) :
    findErtBlocksAux (el :: w) i true st =
      (st, i) :: findErtBlocksAux w (i + 1) false st := by
  simp [findErtBlocksAux, he]

theorem findAux_outside_gap (gap : List Line)
    (hg : ∀ l ∈ gap, containsSub ertBeginSig l = false) :
    ∀ (w : List Line) (i st : Nat),
      findErtBlocksAux (gap ++ w) i false st = findErtBlocksAux w (i + gap.length) false st := by
  induction gap with
  | nil => intro w i st; simp
  | cons g gt ih =>
    intro w i st
    have hgl : containsSub ertBeginSig g = false := hg g (List.mem_cons_self g gt)
    rw [List.cons_append, show findErtBlocksAux (g :: (gt ++ w)) i false st =
      findErtBlocksAux (gt ++ w) (i + 1) false st by simp [findErtBlocksAux, hgl]]
    rw [ih (fun x hx => hg x (List.mem_cons_of_mem g hx)) w (i + 1) st]
    congr 1
    rw [List.length_cons]
    omega

theorem findAux_inside_mid (mid : List Line)
    (hm : ∀ l ∈ mid, containsSub endInsetSig l = false) :
    ∀ (w : List Line) (i st : Nat),
      findErtBlocksAux (mid ++ w) i true st = findErtBlocksAux w (i + mid.length) true st := by
  induction mid with
  | nil => intro w i st; simp
  | cons m mt ih =>
    intro w i st
    have hml : containsSub endInsetSig m = false := hm m (List.mem_cons_self m mt)
    rw [List.cons_append, show findErtBlocksAux (m :: (mt ++ w)) i true st =
      findErtBlocksAux (mt ++ w) (i + 1) true st by simp [findErtBlocksAux, hml]]
    rw [ih (fun x hx => hm x (List.mem_cons_of_mem m hx)) w (i + 1) st]
    congr 1
    rw [List.length_cons]
    omega

theorem findAux_inside_noend (ls : List Line)
    (hm : ∀ l ∈ ls, containsSub endInsetSig l = false) (i st : Nat) :
    findErtBlocksAux ls i true st = [] := by
  rw [show (ls : List Line) = ls ++ [] from (List.append_nil ls).symm,
    findAux_inside_mid ls hm [] i st]
  rfl

theorem findAux_st_irrel : ∀ (ls : List Line) (i st st' : Nat),
    findErtBlocksAux ls i false st = findErtBlocksAux ls i false st' := by
  intro ls
  induction ls with
  | nil => intro i st st'; rfl
  | cons l w ih =>
    intro i st st'
    by_cases hb : containsSub ertBeginSig l = true
    · rw [findAux_begin_step l hb, findAux_begin_step l hb]
    · have hb' : containsSub ertBeginSig l = false := by simpa using hb
      rw [show findErtBlocksAux (l :: w) i false st =
        findErtBlocksAux w (i + 1) false st by simp [findErtBlocksAux, hb'],
        show findErtBlocksAux (l :: w) i false st' =
          findErtBlocksAux w (i + 1) false st' by simp [findErtBlocksAux, hb']]
      exact ih (i + 1) st st'

theorem findAux_shift (k : Nat) : ∀ (ls : List Line) (i : Nat) (ins : Bool) (st : Nat),
    findErtBlocksAux ls (i + k) ins (st + k) =
      (findErtBlocksAux ls i ins st).map (fun se => (se.1 + k, se.2 + k)) := by
  intro ls
  induction ls with
  | nil => intro i ins st; rfl
  | cons l w ih =>
    intro i ins st
    cases ins with
    | false =>
      by_cases hb : containsSub ertBeginSig l = true
      · rw [findAux_begin_step l hb, findAux_begin_step l hb]
        rw [show i + k + 1 = (i + 1) + k by omega]
        exact ih (i + 1) true i
      · have hb' : containsSub ertBeginSig l = false := by simpa using hb
        rw [show findErtBlocksAux (l :: w) (i + k) false (st + k) =
          findErtBlocksAux w (i + k + 1) false (st + k) by simp [findErtBlocksAux, hb'],
          show findErtBlocksAux (l :: w) i false st =
            findErtBlocksAux w (i + 1) false st by simp [findErtBlocksAux, hb']]
        rw [show i + k + 1 = (i + 1) + k by omega]
        exact ih (i + 1) false st
    | true =>
      by_cases he : containsSub endInsetSig l = true
      · rw [findAux_end_step l he, findAux_end_step l he]
        rw [show i + k + 1 = (i + 1) + k by omega]
        rw [ih (i + 1) false st]
        rfl
      · have he' : containsSub endInsetSig l = false := by simpa using he
        rw [show findErtBlocksAux (l :: w) (i + k) true (st + k) =
          findErtBlocksAux w (i + k + 1) true (st + k) by simp [findErtBlocksAux, he'],
          show findErtBlocksAux (l :: w) i true st =
            findErtBlocksAux w (i + 1) true st by simp [findErtBlocksAux, he']]
        rw [show i + k + 1 = (i + 1) + k by omega]
        exact ih (i + 1) true st

/-
  Slice helpers.
-/

theorem drop_append_len (front rest : List Line) (p : Nat) :
    (front ++ rest).drop (front.length + p) = rest.drop p := by
  rw [← List.drop_drop, List.drop_left]

theorem take_append_cons (mid : List Line) (el : Line) (rest : List Line) :
    (mid ++ el :: rest).take (mid.length + 1) = mid ++ [el] := by
  rw [List.append_cons, show mid.length + 1 = (mid ++ [el]).length by simp,
    List.take_left]

/-
  Stepping lemmas for the fused pipeline.
-/

theorem drGo_begin_step (pfx : List Char) (bl : Line) (w : List Line) (n : Nat)
    (hb : containsSub ertBeginSig bl = true) :
    drGo pfx (bl :: w) none n = drGo pfx w (some [bl]) n := by
  simp [drGo, hb]

theorem drGo_gap (pfx : List Char) (gap : List Line)
    (hg : ∀ l ∈ gap, containsSub ertBeginSig l = false) :
    ∀ (w : List Line) (n : Nat),
      drGo pfx (gap ++ w) none n =
        (gap ++ (drGo pfx w none n).1, (drGo pfx w none n).2) := by
  induction gap with
  | nil => intro w n; simp
  | cons g gt ih =>
    intro w n
    have hgl : containsSub ertBeginSig g = false := hg g (List.mem_cons_self g gt)
    rw [List.cons_append, show drGo pfx (g :: (gt ++ w)) none n =
      ((g :: (drGo pfx (gt ++ w) none n).1), (drGo pfx (gt ++ w) none n).2) by
        simp [drGo, hgl]]
    rw [ih (fun x hx => hg x (List.mem_cons_of_mem g hx)) w n]
    simp

theorem drGo_nobegin (pfx : List Char) (ls : List Line)
    (h : ∀ l ∈ ls, containsSub ertBeginSig l = false) (n : Nat) :
    drGo pfx ls none n = (ls, n) := by
  have h2 := drGo_gap pfx ls h [] n
  rw [List.append_nil] at h2
  rw [h2]
  simp [drGo]

theorem drGo_mid_acc (pfx : List Char) (mid : List Line)
    (hm : ∀ l ∈ mid, containsSub endInsetSig l = false) :
    ∀ (w : List Line) (acc : List Line) (n : Nat),
      drGo pfx (mid ++ w) (some acc) n = drGo pfx w (some (acc ++ mid)) n := by
  induction mid with
  | nil => intro w acc n; simp
  | cons m mt ih =>
    intro w acc n
    have hml : containsSub endInsetSig m = false := hm m (List.mem_cons_self m mt)
    rw [List.cons_append, show drGo pfx (m :: (mt ++ w)) (some acc) n =
      drGo pfx (mt ++ w) (some (acc ++ [m])) n by simp [drGo, hml]]
    rw [ih (fun x hx => hm x (List.mem_cons_of_mem m hx)) w (acc ++ [m]) n]
    simp

theorem drGo_inside_noend (pfx : List Char) (ls : List Line)
    (hm : ∀ l ∈ ls, containsSub endInsetSig l = false) (acc : List Line) (n : Nat) :
    drGo pfx ls (some acc) n = (acc ++ ls, n) := by
  rw [show (ls : List Line) = ls ++ [] from (List.append_nil ls).symm,
    drGo_mid_acc pfx ls hm [] acc n]
  simp [drGo]

theorem drGo_end_step (pfx : List Char) (el : Line) (w : List Line) (acc : List Line)
    (n : Nat) (he : containsSub endInsetSig el = true) :
    drGo pfx (el :: w) (some acc) n =
      ((insert_tikz_in_ert (acc ++ [el]) pfx n).1 ++
          (drGo pfx w none (insert_tikz_in_ert (acc ++ [el]) pfx n).2).1,
        (drGo pfx w none (insert_tikz_in_ert (acc ++ [el]) pfx n).2).2) := by
  simp [drGo, he]

/-
  The stitching loop is invariant under shifting all regions past an
  already-emitted front.
-/

theorem processErts_shift (pfx : List Char) (front rest : List Line) :
    ∀ (rs : List (Nat × Nat)) (p n : Nat),
      processErts (front ++ rest) pfx
          (rs.map (fun se => (se.1 + front.length, se.2 + front.length)))
          (front.length + p) n =
        processErts rest pfx rs p n := by
  intro rs
  induction rs with
  | nil =>
    intro p n
    simp only [List.map_nil, processErts]
    rw [drop_append_len]
  | cons se rst ih =>
    intro p n
    simp only [List.map_cons, processErts]
    have hgap : ((front ++ rest).drop (front.length + p)).take
        (se.1 + front.length - (front.length + p)) = (rest.drop p).take (se.1 - p) := by
      rw [drop_append_len, show se.1 + front.length - (front.length + p) = se.1 - p by omega]
    have hert : ((front ++ rest).drop (se.1 + front.length)).take
        (se.2 + front.length + 1 - (se.1 + front.length)) =
        (rest.drop se.1).take (se.2 + 1 - se.1) := by
      rw [show se.1 + front.length = front.length + se.1 by omega, drop_append_len,
        show se.2 + front.length + 1 - (front.length + se.1) = se.2 + 1 - se.1 by omega]
    rw [hgap, hert, show se.2 + front.length + 1 = front.length + (se.2 + 1) by omega,
      ih (se.2 + 1)]

/-
  The full pipeline equals the fused single pass.
-/

theorem processErts_eq_drGo (pfx : List Char) :
    ∀ (N : Nat) (lines : List Line), lines.length ≤ N → ∀ n : Nat,
      processErts lines pfx (find_ert_blocks lines) 0 n = drGo pfx lines none n := by
  intro N
  induction N with
  | zero =>
    intro lines hlen n
    have h0 : lines = [] := List.length_eq_zero.mp (Nat.le_zero.mp hlen)
    subst h0
    simp [processErts, find_ert_blocks, findErtBlocksAux, drGo]
  | succ N ih =>
    intro lines hlen n
    cases hfb : firstSplitBy (fun l => containsSub ertBeginSig l) lines with
    | none =>
      have hg := (firstSplitBy_none_iff _ lines).mp hfb
      have hreg : find_ert_blocks lines = [] := by
        rw [find_ert_blocks, show (lines : List Line) = lines ++ []
          from (List.append_nil lines).symm, findAux_outside_gap lines hg, findAux_nil]
      rw [hreg, drGo_nobegin pfx lines hg n]
      simp [processErts]
    | some g =>
      rcases g with ⟨gap, bl, after⟩
      rcases firstSplitBy_some _ lines gap bl after hfb with ⟨hdecomp, hbbl, hgap⟩
      subst hdecomp
      cases hfe : firstSplitBy (fun l => containsSub endInsetSig l) after with
      | none =>
        have hne := (firstSplitBy_none_iff _ after).mp hfe
        have hreg : find_ert_blocks (gap ++ bl :: after) = [] := by
          rw [find_ert_blocks, findAux_outside_gap gap hgap, findAux_begin_step bl hbbl,
            findAux_inside_noend after hne]
        rw [hreg, drGo_gap pfx gap hgap, drGo_begin_step pfx bl after n hbbl,
          drGo_inside_noend pfx after hne [bl] n]
        simp [processErts]
      | some g2 =>
        rcases g2 with ⟨mid, el, rest⟩
        rcases firstSplitBy_some _ after mid el rest hfe with ⟨had, heel, hmid⟩
        subst had
        have hreg : find_ert_blocks (gap ++ bl :: (mid ++ el :: rest)) =
            (gap.length, gap.length + mid.length + 1) ::
              (find_ert_blocks rest).map
                (fun se => (se.1 + (gap.length + mid.length + 2),
                  se.2 + (gap.length + mid.length + 2))) := by
          rw [find_ert_blocks, findAux_outside_gap gap hgap, findAux_begin_step bl hbbl,
            findAux_inside_mid mid hmid, findAux_end_step el heel]
          simp only [Nat.zero_add]
          rw [show gap.length + 1 + mid.length = gap.length + mid.length + 1 by omega]
          rw [show gap.length + mid.length + 1 + 1 = gap.length + mid.length + 2 by omega]
          rw [findAux_st_irrel rest (gap.length + mid.length + 2) gap.length
            (gap.length + mid.length + 2)]
          have hs := findAux_shift (gap.length + mid.length + 2) rest 0 false 0
          simp only [Nat.zero_add] at hs
          rw [hs]
          rfl
        rw [hreg]
        simp only [processErts]
        have hgapslice : ((gap ++ bl :: (mid ++ el :: rest)).drop 0).take (gap.length - 0) =
            gap := by
          rw [List.drop_zero, Nat.sub_zero, List.take_left]
        have hertslice : ((gap ++ bl :: (mid ++ el :: rest)).drop gap.length).take
            (gap.length + mid.length + 1 + 1 - gap.length) = bl :: (mid ++ [el]) := by
          rw [List.drop_left, show gap.length + mid.length + 1 + 1 - gap.length =
            mid.length + 1 + 1 by omega, List.take_succ_cons, take_append_cons]
        rw [hgapslice, hertslice]
        rw [drGo_gap pfx gap hgap, drGo_begin_step pfx bl _ n hbbl,
          drGo_mid_acc pfx mid hmid, drGo_end_step pfx el rest ([bl] ++ mid) n heel]
        rw [show (([bl] ++ mid) ++ [el] : List Line) = bl :: (mid ++ [el]) by simp]
        have hfront : gap ++ bl :: (mid ++ el :: rest) =
            (gap ++ bl :: (mid ++ [el])) ++ rest := by
          simp
        have hfrontlen : (gap ++ bl :: (mid ++ [el])).length =
            gap.length + mid.length + 2 := by
          simp only [List.length_append, List.length_cons, List.length_nil]
          omega
        rw [hfront]
        rw [show gap.length + mid.length + 1 + 1 =
          (gap ++ bl :: (mid ++ [el])).length + 0 by rw [hfrontlen]]
        simp only [Nat.add_zero]
        have hps := processErts_shift pfx (gap ++ bl :: (mid ++ [el])) rest
          (find_ert_blocks rest) 0 ((insert_tikz_in_ert (bl :: (mid ++ [el])) pfx n).2)
        simp only [Nat.add_zero] at hps
        rw [hps]
        have hrlen : rest.length ≤ N := by
          have h2 : (gap ++ bl :: (mid ++ el :: rest)).length =
              gap.length + mid.length + rest.length + 2 := by
            simp only [List.length_append, List.length_cons]
            omega
          rw [h2] at hlen
          omega
        rw [ih rest hrlen]
        simp [List.append_assoc]

theorem drGo_of_no_regions (pfx : List Char) (lines : List Line)
    (h : find_ert_blocks lines = []) (n : Nat) :
    drGo pfx lines none n = (lines, n) := by
  have h2 := processErts_eq_drGo pfx lines.length lines le_rfl n
  rw [h] at h2
  simp only [processErts, List.drop_zero] at h2
  exact h2.symm

/-- The whole document rewrite as the fused single pass. -/
theorem rewriteDoc_eq_drGo (lines : List Line) (cs : Int) (pfx : List Char) :
    rewriteDoc lines cs pfx =
      (drGo pfx lines none (effectiveStartIndex lines cs pfx).toNat).1 := by
  by_cases h : (find_ert_blocks lines).isEmpty
  · rw [rewriteDoc, if_pos h,
      drGo_of_no_regions pfx lines (List.isEmpty_iff.mp h) _]
  · rw [rewriteDoc, if_neg h,
      processErts_eq_drGo pfx lines.length lines le_rfl _]

/-
  Claim C9: a document with no qualifying sub-block anywhere is
  returned byte-identical.
-/

theorem noenv_walk_id (pfx : List Char) :
    ∀ (bs : List Block) (prev : Option Block) (n : Nat),
      (∀ b ∈ bs, has_environment b = false) → walk pfx prev bs n = (bs, n) := by
  intro bs
  induction bs with
  | nil => intro prev n _; rfl
  | cons b rest ih =>
    intro prev n h
    have hb : has_environment b = false := h b (List.mem_cons_self b rest)
    simp only [walk, hb, Bool.false_eq_true, if_false,
      ih (some b) n (fun x hx => h x (List.mem_cons_of_mem b hx))]

theorem noenv_region_id (R : List Line) (pfx : List Char) (n : Nat)
    (h : ∀ b ∈ split_into_layout_blocks R, has_environment b = false) :
    insert_tikz_in_ert R pfx n = (R, n) := by
  rw [insert_tikz_in_ert_eq_walk, noenv_walk_id pfx _ none n h]
  rw [show ((split_into_layout_blocks R, n) : List Block × Nat).1 =
    split_into_layout_blocks R from rfl]
  rw [c1_segment_partition]

theorem slice_shift (front rest : List Line) (s e : Nat) :
    ((front ++ rest).drop (s + front.length)).take (e + front.length + 1 - (s + front.length)) =
      (rest.drop s).take (e + 1 - s) := by
  rw [show s + front.length = front.length + s by omega, drop_append_len,
    show e + front.length + 1 - (front.length + s) = e + 1 - s by omega]

theorem drGo_noenv (pfx : List Char) : ∀ (N : Nat) (doc : List Line), doc.length ≤ N →
    (∀ se ∈ find_ert_blocks doc,
      ∀ b ∈ split_into_layout_blocks ((doc.drop se.1).take (se.2 + 1 - se.1)),
        has_environment b = false) →
    ∀ n : Nat, drGo pfx doc none n = (doc, n) := by
  intro N
  induction N with
  | zero =>
    intro doc hlen _ n
    have h0 : doc = [] := List.length_eq_zero.mp (Nat.le_zero.mp hlen)
    subst h0
    rfl
  | succ N ih =>
    intro doc hlen henv n
    cases hfb : firstSplitBy (fun l => containsSub ertBeginSig l) doc with
    | none =>
      exact drGo_nobegin pfx doc ((firstSplitBy_none_iff _ doc).mp hfb) n
    | some g =>
      rcases g with ⟨gap, bl, after⟩
      rcases firstSplitBy_some _ doc gap bl after hfb with ⟨hdecomp, hbbl, hgap⟩
      subst hdecomp
      cases hfe : firstSplitBy (fun l => containsSub endInsetSig l) after with
      | none =>
        have hne := (firstSplitBy_none_iff _ after).mp hfe
        rw [drGo_gap pfx gap hgap, drGo_begin_step pfx bl after n hbbl,
          drGo_inside_noend pfx after hne [bl] n]
        simp
      | some g2 =>
        rcases g2 with ⟨mid, el, rest⟩
        rcases firstSplitBy_some _ after mid el rest hfe with ⟨had, heel, hmid⟩
        subst had
        have hreg : find_ert_blocks (gap ++ bl :: (mid ++ el :: rest)) =
            (gap.length, gap.length + mid.length + 1) ::
              (find_ert_blocks rest).map
                (fun se => (se.1 + (gap.length + mid.length + 2),
                  se.2 + (gap.length + mid.length + 2))) := by
          rw [find_ert_blocks, findAux_outside_gap gap hgap, findAux_begin_step bl hbbl,
            findAux_inside_mid mid hmid, findAux_end_step el heel]
          simp only [Nat.zero_add]
          rw [show gap.length + 1 + mid.length = gap.length + mid.length + 1 by omega]
          rw [show gap.length + mid.length + 1 + 1 = gap.length + mid.length + 2 by omega]
          rw [findAux_st_irrel rest (gap.length + mid.length + 2) gap.length
            (gap.length + mid.length + 2)]
          have hs := findAux_shift (gap.length + mid.length + 2) rest 0 false 0
          simp only [Nat.zero_add] at hs
          rw [hs]
          rfl
        have hertslice : (((gap ++ bl :: (mid ++ el :: rest)).drop gap.length).take
            (gap.length + mid.length + 1 + 1 - gap.length)) = bl :: (mid ++ [el]) := by
          rw [List.drop_left, show gap.length + mid.length + 1 + 1 - gap.length =
            mid.length + 1 + 1 by omega, List.take_succ_cons, take_append_cons]
        have henv0 : ∀ b ∈ split_into_layout_blocks (bl :: (mid ++ [el])),
            has_environment b = false := by
          intro b hb
          have hm : (gap.length, gap.length + mid.length + 1) ∈
              find_ert_blocks (gap ++ bl :: (mid ++ el :: rest)) := by
            rw [hreg]
            exact List.mem_cons_self _ _
          have h5 := henv _ hm b
          simp only [] at h5
          rw [hertslice] at h5
          exact h5 hb
        have hr1 : insert_tikz_in_ert (bl :: (mid ++ [el])) pfx n =
            (bl :: (mid ++ [el]), n) :=
          noenv_region_id _ pfx n henv0
        rw [drGo_gap pfx gap hgap, drGo_begin_step pfx bl _ n hbbl,
          drGo_mid_acc pfx mid hmid, drGo_end_step pfx el rest ([bl] ++ mid) n heel]
        rw [show (([bl] ++ mid) ++ [el] : List Line) = bl :: (mid ++ [el]) by simp]
        rw [hr1]
        have hrlen : rest.length ≤ N := by
          have h2 : (gap ++ bl :: (mid ++ el :: rest)).length =
              gap.length + mid.length + rest.length + 2 := by
            simp only [List.length_append, List.length_cons]
            omega
          rw [h2] at hlen
          omega
        have henv2 : ∀ se ∈ find_ert_blocks rest,
            ∀ b ∈ split_into_layout_blocks ((rest.drop se.1).take (se.2 + 1 - se.1)),
              has_environment b = false := by
          intro se hse b hb
          have hk : (se.1 + (gap.length + mid.length + 2),
              se.2 + (gap.length + mid.length + 2)) ∈
              find_ert_blocks (gap ++ bl :: (mid ++ el :: rest)) := by
            rw [hreg]
            exact List.mem_cons_of_mem _ (List.mem_map_of_mem _ hse)
          have h6 := henv _ hk b
          simp only [] at h6
          have hfl : (gap ++ bl :: (mid ++ [el])).length =
              gap.length + mid.length + 2 := by
            simp only [List.length_append, List.length_cons, List.length_nil]
            omega
          rw [show (gap ++ bl :: (mid ++ el :: rest) : List Line) =
            (gap ++ bl :: (mid ++ [el])) ++ rest by simp, ← hfl, slice_shift] at h6
          exact h6 hb
        rw [ih rest hrlen henv2 n]
        simp

/-- C9: for every document in which no sub-block of any located region
contains a qualifying environment opening, the rewrite returns the
document unchanged. -/
theorem c9_noop_without_env (doc : List Line) (cs : Int) (pfx : List Char)
    (henv : ∀ se ∈ find_ert_blocks doc,
      ∀ b ∈ split_into_layout_blocks ((doc.drop se.1).take (se.2 + 1 - se.1)),
        has_environment b = false) :
    rewriteDoc doc cs pfx = doc := by
  rw [rewriteDoc_eq_drGo,
    drGo_noenv pfx doc.length doc le_rfl henv (effectiveStartIndex doc cs pfx).toNat]

/-- The reference walk only ever splices whole new sub-blocks in front
of existing ones, so the flattened input is a sublist of the flattened
output. -/
theorem walk_join_sublist (pfx : List Char) (bs : List Block) :
    ∀ (prev : Option Block) (n : Nat),
      List.Sublist (join_layout_blocks bs)
        (join_layout_blocks (walk pfx prev bs n).1) := by
  induction bs with
  | nil =>
    intro prev n
    simp [walk]
  | cons b rest ih =>
    intro prev n
    by_cases henv : has_environment b = true
    · by_cases htk : has_tikzset b = true
      · simp only [walk, if_pos henv, if_pos htk, join_layout_blocks, List.flatten_cons]
        exact List.Sublist.append_left (ih (some b) n) b
      · by_cases hpv : prevHasTikz prev = true
        · simp only [walk, if_pos henv, if_neg htk, if_pos hpv, join_layout_blocks,
            List.flatten_cons]
          exact List.Sublist.append_left (ih (some b) n) b
        · simp only [walk, if_pos henv, if_neg htk, if_neg hpv, join_layout_blocks,
            List.flatten_cons]
          exact (List.Sublist.append_left (ih (some b) (n + 1)) b).trans
            (List.sublist_append_right _ _)
    · simp only [walk, if_neg henv, join_layout_blocks, List.flatten_cons]
      exact List.Sublist.append_left (ih (some b) n) b

/-- Rewriting one region only splices whole new sub-blocks: the
region's lines form a sublist of the rewritten region. -/
theorem ert_lines_sublist (ert : List Line) (pfx : List Char) (n : Nat) :
    List.Sublist ert (insert_tikz_in_ert ert pfx n).1 := by
  rw [insert_tikz_in_ert_eq_walk]
  have h1 : join_layout_blocks (split_into_layout_blocks ert) = ert := by
    simp [join_layout_blocks, split_into_layout_blocks, flatten_splitAux]
  conv_lhs => rw [← h1]
  exact walk_join_sublist pfx (split_into_layout_blocks ert) none n

/-- The fused pipeline only adds lines: with the accumulated region
front restored, the remaining input is a sublist of the output. -/
theorem drGo_sublist (pfx : List Char) (doc : List Line) :
    ∀ (acc : List Line) (n : Nat),
      List.Sublist (acc ++ doc) (drGo pfx doc (some acc) n).1 ∧
        List.Sublist doc (drGo pfx doc none n).1 := by
  induction doc with
  | nil =>
    intro acc n
    constructor
    · simp [drGo]
    · simp [drGo]
  | cons l ls ih =>
    intro acc n
    constructor
    · by_cases he : containsSub endInsetSig l = true
      · rw [drGo_end_step pfx l ls acc n he,
          show (acc ++ l :: ls : List Line) = (acc ++ [l]) ++ ls by simp]
        exact List.Sublist.append (ert_lines_sublist (acc ++ [l]) pfx n)
          (ih [] (insert_tikz_in_ert (acc ++ [l]) pfx n).2).2
      · rw [show drGo pfx (l :: ls) (some acc) n =
            drGo pfx ls (some (acc ++ [l])) n by simp [drGo, he],
          show (acc ++ l :: ls : List Line) = (acc ++ [l]) ++ ls by simp]
        exact (ih (acc ++ [l]) n).1
    · by_cases hb : containsSub ertBeginSig l = true
      · rw [drGo_begin_step pfx l ls n hb]
        have h2 := (ih [l] n).1
        simpa using h2
      · rw [show drGo pfx (l :: ls) none n =
            ((l :: (drGo pfx ls none n).1), (drGo pfx ls none n).2) by
          simp [drGo, hb]]
        exact List.Sublist.cons₂ l (ih [] n).2

/-- C7: every line of the input document appears unmodified and in the
same relative order in the output: the input is a sublist of the
rewritten document. -/
theorem c7_line_preservation (doc : List Line) (cs : Int) (pfx : List Char) :
    List.Sublist doc (rewriteDoc doc cs pfx) := by
  rw [rewriteDoc_eq_drGo]
  exact (drGo_sublist pfx doc [] (effectiveStartIndex doc cs pfx).toNat).2

/-- Every region the locator returns ends at a line carrying the
region-end signature, within bounds. -/
theorem findAux_mem_end : ∀ (ls : List Line) (i : Nat) (inside : Bool) (st : Nat),
    ∀ se ∈ findErtBlocksAux ls i inside st,
      i ≤ se.2 ∧ se.2 < i + ls.length ∧
        containsSub endInsetSig (ls.getD (se.2 - i) []) = true := by
  intro ls
  induction ls with
  | nil =>
    intro i inside st se hse
    simp [findErtBlocksAux] at hse
  | cons line rest ih =>
    intro i inside st se hse
    by_cases hb : (!inside && containsSub ertBeginSig line) = true
    · rw [show findErtBlocksAux (line :: rest) i inside st =
        findErtBlocksAux rest (i + 1) true i by simp [findErtBlocksAux, hb]] at hse
      rcases ih (i + 1) true i se hse with ⟨h1, h2, h3⟩
      refine ⟨by omega, by simp only [List.length_cons]; omega, ?_⟩
      rw [show se.2 - i = (se.2 - (i + 1)) + 1 by omega]
      simpa using h3
    · simp only [Bool.not_eq_true] at hb
      by_cases he : (inside && containsSub endInsetSig line) = true
      · rw [show findErtBlocksAux (line :: rest) i inside st =
          (st, i) :: findErtBlocksAux rest (i + 1) false st by
            simp [findErtBlocksAux, hb, he]] at hse
        rcases List.mem_cons.mp hse with hs1 | hs2
        · subst hs1
          refine ⟨le_refl i, by simp only [List.length_cons]; omega, ?_⟩
          simp only [Nat.sub_self]
          simpa using ((Bool.and_eq_true _ _).mp he).2
        · rcases ih (i + 1) false st se hs2 with ⟨h1, h2, h3⟩
          refine ⟨by omega, by simp only [List.length_cons]; omega, ?_⟩
          rw [show se.2 - i = (se.2 - (i + 1)) + 1 by omega]
          simpa using h3
      · simp only [Bool.not_eq_true] at he
        rw [show findErtBlocksAux (line :: rest) i inside st =
          findErtBlocksAux rest (i + 1) inside st by
            simp [findErtBlocksAux, hb, he]] at hse
        rcases ih (i + 1) inside st se hse with ⟨h1, h2, h3⟩
        refine ⟨by omega, by simp only [List.length_cons]; omega, ?_⟩
        rw [show se.2 - i = (se.2 - (i + 1)) + 1 by omega]
        simpa using h3

/-- On a line list free of region-end signatures the fused pipeline is
the identity: begin-signature lines only open a region that is never
closed, and its accumulated lines are emitted verbatim. -/
theorem drGo_none_noend (pfx : List Char) (ls : List Line)
    (hm : ∀ l ∈ ls, containsSub endInsetSig l = false) (n : Nat) :
    drGo pfx ls none n = (ls, n) := by
  cases hfb : firstSplitBy (fun l => containsSub ertBeginSig l) ls with
  | none =>
    exact drGo_nobegin pfx ls ((firstSplitBy_none_iff _ ls).mp hfb) n
  | some g =>
    rcases g with ⟨gap, bl, after⟩
    rcases firstSplitBy_some _ ls gap bl after hfb with ⟨hdecomp, hbbl, hgap⟩
    subst hdecomp
    have hafter : ∀ l ∈ after, containsSub endInsetSig l = false := by
      intro l hl
      exact hm l (by simp [hl])
    rw [drGo_gap pfx gap hgap, drGo_begin_step pfx bl after n hbbl,
      drGo_inside_noend pfx after hafter [bl] n]
    simp

/-- A suffix free of region-end signatures passes through the fused
pipeline verbatim: the output ends with exactly that suffix. -/
theorem drGo_tail_drop (pfx : List Char) (suf : List Line)
    (hs : ∀ l ∈ suf, containsSub endInsetSig l = false) :
    ∀ (pre : List Line) (st : Option (List Line)) (n : Nat),
      ∃ front, (drGo pfx (pre ++ suf) st n).1 = front ++ suf := by
  intro pre
  induction pre with
  | nil =>
    intro st n
    cases st with
    | none =>
      exact ⟨[], by rw [List.nil_append, drGo_none_noend pfx suf hs n]⟩
    | some acc =>
      exact ⟨acc, by rw [List.nil_append, drGo_inside_noend pfx suf hs acc n]⟩
  | cons p pt ih =>
    intro st n
    cases st with
    | none =>
      by_cases hb : containsSub ertBeginSig p = true
      · rw [List.cons_append, drGo_begin_step pfx p (pt ++ suf) n hb]
        exact ih (some [p]) n
      · simp only [Bool.not_eq_true] at hb
        rw [List.cons_append, show drGo pfx (p :: (pt ++ suf)) none n =
          ((p :: (drGo pfx (pt ++ suf) none n).1), (drGo pfx (pt ++ suf) none n).2) by
            simp [drGo, hb]]
        rcases ih none n with ⟨front, hf⟩
        exact ⟨p :: front, by simp [hf]⟩
    | some acc =>
      by_cases he : containsSub endInsetSig p = true
      · rw [List.cons_append, drGo_end_step pfx p (pt ++ suf) acc n he]
        rcases ih none (insert_tikz_in_ert (acc ++ [p]) pfx n).2 with ⟨front, hf⟩
        exact ⟨(insert_tikz_in_ert (acc ++ [p]) pfx n).1 ++ front, by simp [hf]⟩
      · simp only [Bool.not_eq_true] at he
        rw [List.cons_append, show drGo pfx (p :: (pt ++ suf)) (some acc) n =
          drGo pfx (pt ++ suf) (some (acc ++ [p])) n by simp [drGo, he]]
        exact ih (some (acc ++ [p])) n

/-- C8: if a line at position `t` carries a region-begin signature and
no line from `t` to the end of the document carries a region-end
signature, then every region the locator returns ends before `t` (the
unterminated region is silently dropped, without error) and the
rewritten document ends with the lines from `t` on, untouched. -/
theorem c8_unterminated_region_dropped (doc : List Line) (cs : Int) (pfx : List Char)
    (t : Nat) (ht : t < doc.length)
    (_hbeg : containsSub ertBeginSig (doc.getD t []) = true)
    (hnoend : ∀ j, j < doc.length → t ≤ j →
      containsSub endInsetSig (doc.getD j []) = false) :
    (∀ se ∈ find_ert_blocks doc, se.2 < t) ∧
      ∃ front, rewriteDoc doc cs pfx = front ++ doc.drop t := by
  have hsuf : ∀ l ∈ doc.drop t, containsSub endInsetSig l = false := by
    intro l hl
    rcases List.mem_iff_getElem.mp hl with ⟨k, hk, hkl⟩
    have hk2 : t + k < doc.length := by
      rw [List.length_drop] at hk
      omega
    have hld : l = doc.getD (t + k) [] := by
      rw [List.getD_eq_getElem doc [] hk2, ← hkl]
      exact List.getElem_drop ..
    rw [hld]
    exact hnoend (t + k) hk2 (by omega)
  constructor
  · intro se hse
    rcases findAux_mem_end doc 0 false 0 se hse with ⟨h1, h2, h3⟩
    by_contra hlt
    push_neg at hlt
    have h4 := hnoend se.2 (by simpa using h2) hlt
    rw [Nat.sub_zero] at h3
    rw [h4] at h3
    exact Bool.false_ne_true h3
  · rw [rewriteDoc_eq_drGo]
    have h := drGo_tail_drop pfx (doc.drop t) hsuf (doc.take t) none
      (effectiveStartIndex doc cs pfx).toNat
    rw [List.take_append_drop t doc] at h
    exact h

/-- Folding `max` from an arbitrary seed is the list maximum joined
with the seed. -/
theorem foldr_max_init (l : List Nat) : ∀ b, l.foldr max b = max (listMax l) b := by
  induction l with
  | nil =>
    intro b
    simp [listMax]
  | cons x xs ih =>
    intro b
    show max x (xs.foldr max b) = max (listMax (x :: xs)) b
    rw [ih b, show listMax (x :: xs) = max x (listMax xs) from rfl, Nat.max_assoc]

/-- The list maximum distributes over concatenation. -/
theorem listMax_append (l1 l2 : List Nat) :
    listMax (l1 ++ l2) = max (listMax l1) (listMax l2) := by
  show (l1 ++ l2).foldr max 0 = _
  rw [List.foldr_append, foldr_max_init l1 (l2.foldr max 0)]
  rfl

/-- Left fold of `max` from a seed is the seed joined with the list
maximum. -/
theorem foldl_max_eq (l : List Nat) : ∀ a, l.foldl max a = max a (listMax l) := by
  induction l with
  | nil =>
    intro a
    simp [listMax]
  | cons x xs ih =>
    intro a
    show xs.foldl max (max a x) = _
    rw [ih (max a x), show listMax (x :: xs) = max x (listMax xs) from rfl, Nat.max_assoc]

/-- The per-region inner fold of the existing-maximum scan is the
maximum of the marker indices of the region's sub-blocks. -/
theorem subfold_eq (pfx : List Char) (bs : List Block) :
    ∀ (acc : Nat),
      bs.foldl (fun a sb => (get_tikz_indices sb pfx).foldl max a) acc =
        max acc (listMax ((bs.map (fun sb => get_tikz_indices sb pfx)).flatten)) := by
  induction bs with
  | nil =>
    intro acc
    simp [listMax]
  | cons b bt ih =>
    intro acc
    rw [List.foldl_cons, ih, foldl_max_eq, List.map_cons, List.flatten_cons,
      listMax_append, Nat.max_assoc]

/-- The region fold of the existing-maximum scan is the maximum of all
region-scanned marker indices. -/
theorem regionfold_eq (lines : List Line) (pfx : List Char) :
    ∀ (rs : List (Nat × Nat)) (a : Nat),
      rs.foldl (fun acc se =>
        (split_into_layout_blocks ((lines.drop se.1).take (se.2 + 1 - se.1))).foldl
          (fun a2 sb => (get_tikz_indices sb pfx).foldl max a2) acc) a =
      max a (listMax ((rs.map (fun se =>
        ((split_into_layout_blocks ((lines.drop se.1).take (se.2 + 1 - se.1))).map
          (fun sb => get_tikz_indices sb pfx)).flatten)).flatten)) := by
  intro rs
  induction rs with
  | nil =>
    intro a
    simp [listMax]
  | cons r rt ih =>
    intro a
    rw [List.foldl_cons, ih, subfold_eq, List.map_cons, List.flatten_cons,
      listMax_append, Nat.max_assoc]

/-- The existing-maximum scan of `main` computes exactly the maximum
of the marker indices found in the sub-blocks of the located
regions. -/
theorem computeMaxFound_eq (lines : List Line) (pfx : List Char) :
    computeMaxFound lines pfx = listMax (allRegionIndices lines pfx) := by
  rw [computeMaxFound, allRegionIndices, regionfold_eq]
  simp

/-- C4 (amended): the effective starting index equals the maximum of
the configured start index and one more than the maximum marker index
found in the sub-blocks of the located regions (not anywhere in the
document). -/
theorem c4_corrected_effective_start (doc : List Line) (cs : Int) (pfx : List Char) :
    effectiveStartIndex doc cs pfx =
      max cs ((listMax (allRegionIndices doc pfx) : Int) + 1) := by
  rw [effectiveStartIndex, computeMaxFound_eq]

/-- Every element of a list is bounded by its maximum. -/
theorem le_listMax (l : List Nat) : ∀ j ∈ l, j ≤ listMax l := by
  induction l with
  | nil =>
    simp
  | cons x xs ih =>
    intro j hj
    rcases List.mem_cons.mp hj with h | h
    · subst h
      show j ≤ max j (listMax xs)
      exact Nat.le_max_left _ _
    · exact le_trans (ih j h) (Nat.le_max_right x (listMax xs))

/-- Two adjacent counter ranges glue into one. -/
theorem range_glue (n m k : Nat) (h1 : n ≤ m) (h2 : m ≤ k) :
    List.range' n (m - n) ++ List.range' m (k - m) = List.range' n (k - n) := by
  have h := List.range'_append n (m - n) (k - m) 1
  rw [show n + 1 * (m - n) = m by omega] at h
  rw [h]
  congr 1
  omega

/-- The instrumented stitching loop spends exactly the counter values
from its starting value up to its final value, in order. -/
theorem processErtsN_eq_range (lines : List Line) (pfx : List Char) :
    ∀ (rs : List (Nat × Nat)) (n : Nat),
      (processErtsN lines pfx rs n).1 =
        List.range' n ((processErtsN lines pfx rs n).2 - n) ∧
      n ≤ (processErtsN lines pfx rs n).2 := by
  intro rs
  induction rs with
  | nil =>
    intro n
    simp [processErtsN]
  | cons se rt ih =>
    intro n
    simp only [processErtsN]
    have hw : (insert_tikz_in_ert ((lines.drop se.1).take (se.2 + 1 - se.1)) pfx n).2 =
        (walk pfx none
          (split_into_layout_blocks ((lines.drop se.1).take (se.2 + 1 - se.1))) n).2 := by
      rw [insert_tikz_in_ert_eq_walk]
    have h1 : n ≤ (insert_tikz_in_ert ((lines.drop se.1).take (se.2 + 1 - se.1)) pfx n).2 := by
      rw [hw]
      exact walk_counter_mono pfx _ _ _
    obtain ⟨ha, hb⟩ :=
      ih ((insert_tikz_in_ert ((lines.drop se.1).take (se.2 + 1 - se.1)) pfx n).2)
    refine ⟨?_, by omega⟩
    rw [walkN_eq_range pfx
      (split_into_layout_blocks ((lines.drop se.1).take (se.2 + 1 - se.1))) none n,
      ← hw, ha]
    exact range_glue n _ _ h1 hb

/-- C5 (amended): the indices of the markers newly inserted by one run
are strictly increasing in document order, and every one of them
strictly exceeds every marker index the run's scan finds in the
sub-blocks of the located regions.  (Pre-existing duplicate markers in
the input survive to the output, so distinctness holds only for the
newly inserted markers.) -/
theorem c5_corrected_monotonic_inserted (doc : List Line) (cs : Int) (pfx : List Char) :
    List.Pairwise (· < ·) (insertedIndices doc cs pfx) ∧
      ∀ i ∈ insertedIndices doc cs pfx, ∀ j ∈ allRegionIndices doc pfx, j < i := by
  by_cases hE : (find_ert_blocks doc).isEmpty
  · rw [insertedIndices, if_pos hE]
    exact ⟨List.Pairwise.nil, by simp⟩
  · rw [insertedIndices, if_neg hE]
    obtain ⟨ha, _⟩ := processErtsN_eq_range doc pfx (find_ert_blocks doc)
      (effectiveStartIndex doc cs pfx).toNat
    rw [ha]
    constructor
    · exact List.pairwise_lt_range' _ _
    · intro i hi j hj
      have hi1 : (effectiveStartIndex doc cs pfx).toNat ≤ i := (List.mem_range'_1.mp hi).1
      have hj1 : j ≤ listMax (allRegionIndices doc pfx) := le_listMax _ j hj
      have hcm : computeMaxFound doc pfx = listMax (allRegionIndices doc pfx) :=
        computeMaxFound_eq doc pfx
      have hes : ((computeMaxFound doc pfx : Int) + 1) ≤ effectiveStartIndex doc cs pfx :=
        le_max_right _ _
      omega

set_option maxRecDepth 4096 in
/-- Counterexample to C5 as stated: a document whose input already
holds two markers with the same index keeps both, so the output's
marker indices are not pairwise distinct. -/
theorem c5_counterexample :
    ¬ List.Pairwise (fun a b => a ≠ b)
      (allRegionIndices (rewriteDoc exDocDupMarkers 1 ("qcpict".toList))
        ("qcpict".toList)) := by
  decide

set_option maxRecDepth 4096 in
/-- Counterexample to C4 as stated: a document whose only marker lies
outside every located region has effective starting index given by the
configured value, not by one more than the document-wide maximum
marker index. -/
theorem c4_counterexample :
    effectiveStartIndex exDocOutsideMarker 1 ("qcpict".toList) ≠
      max 1 ((specMaxMarkerAnywhere exDocOutsideMarker ("qcpict".toList) : Int) + 1) := by
  decide

/-- Witness for C8: a document whose second region-begin signature is
never closed; the locator reports only the first region and the tail
from the unterminated begin on is preserved verbatim. -/
theorem c8_witness :
    (2 < exDocUnterminated.length ∧
      containsSub ertBeginSig (exDocUnterminated.getD 2 []) = true ∧
      (∀ j, j < exDocUnterminated.length → 2 ≤ j →
        containsSub endInsetSig (exDocUnterminated.getD j []) = false)) ∧
    ((∀ se ∈ find_ert_blocks exDocUnterminated, se.2 < 2) ∧
      ∃ front, rewriteDoc exDocUnterminated 1 ("qcpict".toList) =
        front ++ exDocUnterminated.drop 2) :=
  ⟨⟨by decide, by decide, by decide⟩,
    c8_unterminated_region_dropped exDocUnterminated 1 ("qcpict".toList) 2
      (by decide) (by decide) (by decide)⟩

/-- Witness for C9: a document with one region and no environment
openings is untouched. -/
theorem c9_witness :
    (∀ se ∈ find_ert_blocks exDocNoEnv,
      ∀ b ∈ split_into_layout_blocks ((exDocNoEnv.drop se.1).take (se.2 + 1 - se.1)),
        has_environment b = false) ∧
      rewriteDoc exDocNoEnv 1 ("qcpict".toList) = exDocNoEnv :=
  ⟨by decide, c9_noop_without_env exDocNoEnv 1 ("qcpict".toList) (by decide)⟩

/-- No line of a synthesized marker sub-block carries the region-end
signature, provided the name stem is backslash-free. -/
theorem marker_no_endInset (pfx : List Char) (hb : ∀ c ∈ pfx, c ≠ '\\') (k : Nat) :
    ∀ l ∈ make_tikz_layout pfx k, containsSub endInsetSig l = false := by
  intro l hl
  simp only [make_tikz_layout, List.mem_cons, List.not_mem_nil, or_false] at hl
  rcases hl with h | h | h | h
  · subst h
    decide
  · subst h
    decide
  · subst h
    rw [endInsetSig_eq]
    exact containsSub_head_false _ _ _ (no_bs_tikz_line pfx k hb)
  · subst h
    decide

/-- The walk passes a list of empty sub-blocks through unchanged. -/
theorem walk_all_nil (pfx : List Char) :
    ∀ (bs : List Block) (prev : Option Block) (n : Nat),
      (∀ b ∈ bs, b = []) → walk pfx prev bs n = (bs, n) := by
  intro bs
  induction bs with
  | nil =>
    intro prev n _
    rfl
  | cons b rest ih =>
    intro prev n h
    have hb : b = [] := h b (List.mem_cons_self b rest)
    subst hb
    have henv : has_environment ([] : Block) = false := by decide
    rw [show walk pfx prev ([] :: rest) n =
      (([] : Block) :: (walk pfx (some []) rest n).1, (walk pfx (some []) rest n).2) by
        simp [walk, henv]]
    rw [ih (some []) n (fun x hx => h x (List.mem_cons_of_mem _ hx))]

/-- Splitting an equation `b ++ X = ms ++ [el]` with nonempty `X`. -/
theorem append_eq_snoc (el : Line) :
    ∀ (b X ms : List Line), X ≠ [] → b ++ X = ms ++ [el] →
      ∃ msr, X = msr ++ [el] ∧ ms = b ++ msr := by
  intro b
  induction b with
  | nil =>
    intro X ms _ h
    exact ⟨ms, by simpa using h, by simp⟩
  | cons x bt ih =>
    intro X ms hX h
    cases ms with
    | nil =>
      simp only [List.cons_append, List.nil_append, List.cons.injEq] at h
      rcases h with ⟨_, h2⟩
      exact absurd (List.append_eq_nil.mp h2).2 hX
    | cons m mt =>
      simp only [List.cons_append, List.cons.injEq] at h
      rcases h with ⟨h1, h2⟩
      subst h1
      rcases ih X mt hX h2 with ⟨msr, hx, hm⟩
      exact ⟨msr, hx, by rw [hm, List.cons_append]⟩

/-- An all-alphanumeric name stem does not start with a closing
brace. -/
theorem alnum_head_ne_rbrace (pfx : List Char) (h : ∀ c ∈ pfx, c.isAlphanum = true) :
    pfx.head? ≠ some '}' := by
  cases pfx with
  | nil =>
    simp
  | cons p pt =>
    simp only [List.head?_cons, ne_eq, Option.some.injEq]
    intro hp
    subst hp
    exact absurd (h '}' (List.mem_cons_self _ _)) (by decide)

/-- Shape preservation of the walk: if the flattened input ends with
`el` and all earlier lines are free of the region-end signature, so is
the flattened output (markers are signature-free for a backslash-free
stem). -/
theorem walk_shape (pfx : List Char) (hb : ∀ c ∈ pfx, c ≠ '\\') (el : Line) :
    ∀ (bs : List Block) (prev : Option Block) (n : Nat) (ms : List Line),
      join_layout_blocks bs = ms ++ [el] →
      (∀ m ∈ ms, containsSub endInsetSig m = false) →
      ∃ ms2, (∀ m ∈ ms2, containsSub endInsetSig m = false) ∧
        join_layout_blocks (walk pfx prev bs n).1 = ms2 ++ [el] := by
  intro bs
  induction bs with
  | nil =>
    intro prev n ms h _
    exact absurd h (by simp [join_layout_blocks])
  | cons b rest ih =>
    intro prev n ms h hms
    rw [join_layout_blocks, List.flatten_cons] at h
    by_cases hXnil : rest.flatten = []
    · rw [hXnil, List.append_nil] at h
      have hrest_nil : ∀ b' ∈ rest, b' = [] := List.flatten_eq_nil_iff.mp hXnil
      simp only [walk]
      split_ifs with h1 h2 h3
      · refine ⟨ms, hms, ?_⟩
        rw [walk_all_nil pfx rest (some b) n hrest_nil]
        simp [join_layout_blocks, hXnil, h]
      · refine ⟨ms, hms, ?_⟩
        rw [walk_all_nil pfx rest (some b) n hrest_nil]
        simp [join_layout_blocks, hXnil, h]
      · refine ⟨make_tikz_layout pfx n ++ ms, ?_, ?_⟩
        · intro m hm
          rcases List.mem_append.mp hm with hmm | hmm
          · exact marker_no_endInset pfx hb n m hmm
          · exact hms m hmm
        · rw [walk_all_nil pfx rest (some b) (n + 1) hrest_nil]
          simp [join_layout_blocks, hXnil, h]
      · refine ⟨ms, hms, ?_⟩
        rw [walk_all_nil pfx rest (some b) n hrest_nil]
        simp [join_layout_blocks, hXnil, h]
    · rcases append_eq_snoc el b rest.flatten ms hXnil h with ⟨msr, hX, hm⟩
      subst hm
      have hmsr : ∀ m ∈ msr, containsSub endInsetSig m = false := by
        intro m hm2
        exact hms m (List.mem_append_right b hm2)
      have hbm : ∀ m ∈ b, containsSub endInsetSig m = false := by
        intro m hm2
        exact hms m (List.mem_append_left msr hm2)
      simp only [walk]
      split_ifs with h1 h2 h3
      · obtain ⟨ms2, hms2, hjoin2⟩ := ih (some b) n msr
          (by rw [join_layout_blocks]; exact hX) hmsr
        refine ⟨b ++ ms2, ?_, ?_⟩
        · intro m hm2
          rcases List.mem_append.mp hm2 with hmm | hmm
          · exact hbm m hmm
          · exact hms2 m hmm
        · rw [join_layout_blocks, List.flatten_cons, show (walk pfx (some b) rest n).1.flatten =
            ms2 ++ [el] from hjoin2]
          simp
      · obtain ⟨ms2, hms2, hjoin2⟩ := ih (some b) n msr
          (by rw [join_layout_blocks]; exact hX) hmsr
        refine ⟨b ++ ms2, ?_, ?_⟩
        · intro m hm2
          rcases List.mem_append.mp hm2 with hmm | hmm
          · exact hbm m hmm
          · exact hms2 m hmm
        · rw [join_layout_blocks, List.flatten_cons, show (walk pfx (some b) rest n).1.flatten =
            ms2 ++ [el] from hjoin2]
          simp
      · obtain ⟨ms2, hms2, hjoin2⟩ := ih (some b) (n + 1) msr
          (by rw [join_layout_blocks]; exact hX) hmsr
        refine ⟨make_tikz_layout pfx n ++ (b ++ ms2), ?_, ?_⟩
        · intro m hm2
          rcases List.mem_append.mp hm2 with hmm | hmm
          · exact marker_no_endInset pfx hb n m hmm
          · rcases List.mem_append.mp hmm with hmm2 | hmm2
            · exact hbm m hmm2
            · exact hms2 m hmm2
        · rw [join_layout_blocks, List.flatten_cons, List.flatten_cons,
            show (walk pfx (some b) rest (n + 1)).1.flatten = ms2 ++ [el] from hjoin2]
          simp
      · obtain ⟨ms2, hms2, hjoin2⟩ := ih (some b) n msr
          (by rw [join_layout_blocks]; exact hX) hmsr
        refine ⟨b ++ ms2, ?_, ?_⟩
        · intro m hm2
          rcases List.mem_append.mp hm2 with hmm | hmm
          · exact hbm m hmm
          · exact hms2 m hmm
        · rw [join_layout_blocks, List.flatten_cons, show (walk pfx (some b) rest n).1.flatten =
            ms2 ++ [el] from hjoin2]
          simp

/-- Rewriting a region whose interior is free of the region-end
signature and whose leading sub-block triggers no insertion keeps the
region's first and last lines in place and keeps the interior free of
the region-end signature. -/
theorem region_rewrite_shape (pfx : List Char) (hb : ∀ c ∈ pfx, c ≠ '\\')
    (bl el : Line) (mid : List Line)
    (hmid : ∀ m ∈ mid, containsSub endInsetSig m = false)
    (hsafe : has_environment ((split_into_layout_blocks
        (bl :: (mid ++ [el]))).getD 0 []) = false ∨
      has_tikzset ((split_into_layout_blocks
        (bl :: (mid ++ [el]))).getD 0 []) = true)
    (n : Nat) :
    ∃ ms3, (∀ m ∈ ms3, containsSub endInsetSig m = false) ∧
      (insert_tikz_in_ert (bl :: (mid ++ [el])) pfx n).1 = bl :: (ms3 ++ [el]) := by
  have hstep : ∃ fl2, split_into_layout_blocks (bl :: (mid ++ [el])) =
      splitAux (mid ++ [el]) [bl] fl2 := by
    by_cases hbbl : lineBegin bl = true
    · exact ⟨true, by rw [split_into_layout_blocks,
        splitAux_begin_step_nilcur bl _ false hbbl]⟩
    · refine ⟨false, ?_⟩
      rw [split_into_layout_blocks,
        splitAux_else_step bl _ [] false (by simpa using hbbl) (by simp)]
      rfl
  obtain ⟨fl2, hsp⟩ := hstep
  obtain ⟨bt, rest2, hsp2⟩ := splitAux_head_of_cur (mid ++ [el]) bl [] fl2
  have hsplit : split_into_layout_blocks (bl :: (mid ++ [el])) = (bl :: bt) :: rest2 :=
    hsp.trans hsp2
  have h0 : ((bl :: bt) :: rest2).flatten = bl :: (mid ++ [el]) := by
    rw [← hsplit]
    show (splitAux (bl :: (mid ++ [el])) [] false).flatten = _
    simpa using flatten_splitAux (bl :: (mid ++ [el])) [] false
  have htail : bt ++ rest2.flatten = mid ++ [el] := by
    rw [List.flatten_cons, List.cons_append, List.cons.injEq] at h0
    exact h0.2
  rw [insert_tikz_in_ert_eq_walk, hsplit]
  rw [hsplit] at hsafe
  simp only [List.getD_cons_zero] at hsafe
  have hw1 : walk pfx none ((bl :: bt) :: rest2) n =
      ((bl :: bt) :: (walk pfx (some (bl :: bt)) rest2 n).1,
        (walk pfx (some (bl :: bt)) rest2 n).2) := by
    rcases hsafe with h1 | h1
    · simp [walk, h1]
    · by_cases h2 : has_environment (bl :: bt) = true
      · simp [walk, h2, h1]
      · simp [walk, h2]
  rw [hw1]
  by_cases hXnil : rest2.flatten = []
  · have hrest_nil : ∀ b' ∈ rest2, b' = [] := List.flatten_eq_nil_iff.mp hXnil
    have hbt : bt = mid ++ [el] := by
      rw [hXnil, List.append_nil] at htail
      exact htail
    refine ⟨mid, hmid, ?_⟩
    rw [walk_all_nil pfx rest2 (some (bl :: bt)) n hrest_nil]
    simp [join_layout_blocks, hXnil, hbt]
  · rcases append_eq_snoc el bt rest2.flatten mid hXnil htail with ⟨msr, hX, hm⟩
    have hmsr : ∀ m ∈ msr, containsSub endInsetSig m = false := by
      intro m hm2
      exact hmid m (by rw [hm]; exact List.mem_append_right bt hm2)
    obtain ⟨ms2, hms2, hjoin2⟩ := walk_shape pfx hb el rest2 (some (bl :: bt)) n msr
      (by rw [join_layout_blocks]; exact hX) hmsr
    refine ⟨bt ++ ms2, ?_, ?_⟩
    · intro m hm2
      rcases List.mem_append.mp hm2 with h | h
      · exact hmid m (by rw [hm]; exact List.mem_append_left msr h)
      · exact hms2 m h
    · rw [join_layout_blocks, List.flatten_cons,
        show (walk pfx (some (bl :: bt)) rest2 n).1.flatten = ms2 ++ [el] from hjoin2]
      simp

/-- Idempotence of the fused pipeline, for an alphanumeric name stem
and documents in which no region's leading sub-block triggers an
insertion: running the pipeline on its own output changes nothing. -/
theorem drGo_idem (pfx : List Char) (hpfx : ∀ c ∈ pfx, c.isAlphanum = true) :
    ∀ (N : Nat) (doc : List Line), doc.length ≤ N →
      (∀ se ∈ find_ert_blocks doc,
        has_environment ((split_into_layout_blocks
          ((doc.drop se.1).take (se.2 + 1 - se.1))).getD 0 []) = false ∨
        has_tikzset ((split_into_layout_blocks
          ((doc.drop se.1).take (se.2 + 1 - se.1))).getD 0 []) = true) →
      ∀ (n n2 : Nat),
        drGo pfx (drGo pfx doc none n).1 none n2 = ((drGo pfx doc none n).1, n2) := by
  have hb : ∀ c ∈ pfx, c ≠ '\\' := fun c hc => isAlphanum_ne_backslash (hpfx c hc)
  have hh : pfx.head? ≠ some '}' := alnum_head_ne_rbrace pfx hpfx
  intro N
  induction N with
  | zero =>
    intro doc hlen _ n n2
    have h0 : doc = [] := List.length_eq_zero.mp (Nat.le_zero.mp hlen)
    subst h0
    rfl
  | succ N ih =>
    intro doc hlen hsafe n n2
    cases hfb : firstSplitBy (fun l => containsSub ertBeginSig l) doc with
    | none =>
      have hng := (firstSplitBy_none_iff _ doc).mp hfb
      rw [drGo_nobegin pfx doc hng n]
      exact drGo_nobegin pfx doc hng n2
    | some g =>
      rcases g with ⟨gap, bl, after⟩
      rcases firstSplitBy_some _ doc gap bl after hfb with ⟨hdecomp, hbbl, hgap⟩
      subst hdecomp
      cases hfe : firstSplitBy (fun l => containsSub endInsetSig l) after with
      | none =>
        have hne := (firstSplitBy_none_iff _ after).mp hfe
        have hid : ∀ m : Nat,
            drGo pfx (gap ++ bl :: after) none m = (gap ++ bl :: after, m) := by
          intro m
          rw [drGo_gap pfx gap hgap, drGo_begin_step pfx bl after m hbbl,
            drGo_inside_noend pfx after hne [bl] m]
          simp
        rw [hid n]
        exact hid n2
      | some g2 =>
        rcases g2 with ⟨mid, el, rest⟩
        rcases firstSplitBy_some _ after mid el rest hfe with ⟨had, heel, hmid⟩
        subst had
        have hreg : find_ert_blocks (gap ++ bl :: (mid ++ el :: rest)) =
            (gap.length, gap.length + mid.length + 1) ::
              (find_ert_blocks rest).map
                (fun se => (se.1 + (gap.length + mid.length + 2),
                  se.2 + (gap.length + mid.length + 2))) := by
          rw [find_ert_blocks, findAux_outside_gap gap hgap, findAux_begin_step bl hbbl,
            findAux_inside_mid mid hmid, findAux_end_step el heel]
          simp only [Nat.zero_add]
          rw [show gap.length + 1 + mid.length = gap.length + mid.length + 1 by omega]
          rw [show gap.length + mid.length + 1 + 1 = gap.length + mid.length + 2 by omega]
          rw [findAux_st_irrel rest (gap.length + mid.length + 2) gap.length
            (gap.length + mid.length + 2)]
          have hs := findAux_shift (gap.length + mid.length + 2) rest 0 false 0
          simp only [Nat.zero_add] at hs
          rw [hs]
          rfl
        have hertslice : (((gap ++ bl :: (mid ++ el :: rest)).drop gap.length).take
            (gap.length + mid.length + 1 + 1 - gap.length)) = bl :: (mid ++ [el]) := by
          rw [List.drop_left, show gap.length + mid.length + 1 + 1 - gap.length =
            mid.length + 1 + 1 by omega, List.take_succ_cons, take_append_cons]
        have hm0 : (gap.length, gap.length + mid.length + 1) ∈
            find_ert_blocks (gap ++ bl :: (mid ++ el :: rest)) := by
          rw [hreg]
          exact List.mem_cons_self _ _
        have hsafeR := hsafe _ hm0
        simp only [] at hsafeR
        rw [hertslice] at hsafeR
        obtain ⟨ms3, hms3, hR1⟩ := region_rewrite_shape pfx hb bl el mid hmid hsafeR n
        rw [drGo_gap pfx gap hgap, drGo_begin_step pfx bl _ n hbbl,
          drGo_mid_acc pfx mid hmid, drGo_end_step pfx el rest ([bl] ++ mid) n heel]
        rw [show (([bl] ++ mid) ++ [el] : List Line) = bl :: (mid ++ [el]) by simp]
        simp only []
        rw [hR1]
        rw [show (gap ++ ((bl :: (ms3 ++ [el])) ++
            (drGo pfx rest none
              (insert_tikz_in_ert (bl :: (mid ++ [el])) pfx n).2).1) : List Line) =
          gap ++ bl :: (ms3 ++ el ::
            (drGo pfx rest none
              (insert_tikz_in_ert (bl :: (mid ++ [el])) pfx n).2).1) by simp]
        rw [drGo_gap pfx gap hgap, drGo_begin_step pfx bl _ n2 hbbl,
          drGo_mid_acc pfx ms3 hms3,
          drGo_end_step pfx el
            ((drGo pfx rest none
              (insert_tikz_in_ert (bl :: (mid ++ [el])) pfx n).2).1)
            ([bl] ++ ms3) n2 heel]
        rw [show (([bl] ++ ms3) ++ [el] : List Line) = bl :: (ms3 ++ [el]) by simp]
        rw [← hR1]
        rw [region_second_run (bl :: (mid ++ [el])) pfx n n2 hb hh]
        simp only []
        have hrlen : rest.length ≤ N := by
          have h2 : (gap ++ bl :: (mid ++ el :: rest)).length =
              gap.length + mid.length + rest.length + 2 := by
            simp only [List.length_append, List.length_cons]
            omega
          rw [h2] at hlen
          omega
        have hsafe2 : ∀ se ∈ find_ert_blocks rest,
            has_environment ((split_into_layout_blocks
              ((rest.drop se.1).take (se.2 + 1 - se.1))).getD 0 []) = false ∨
            has_tikzset ((split_into_layout_blocks
              ((rest.drop se.1).take (se.2 + 1 - se.1))).getD 0 []) = true := by
          intro se hse
          have hk : (se.1 + (gap.length + mid.length + 2),
              se.2 + (gap.length + mid.length + 2)) ∈
              find_ert_blocks (gap ++ bl :: (mid ++ el :: rest)) := by
            rw [hreg]
            exact List.mem_cons_of_mem _ (List.mem_map_of_mem _ hse)
          have h6 := hsafe _ hk
          simp only [] at h6
          have hfl : (gap ++ bl :: (mid ++ [el])).length =
              gap.length + mid.length + 2 := by
            simp only [List.length_append, List.length_cons, List.length_nil]
            omega
          rw [show (gap ++ bl :: (mid ++ el :: rest) : List Line) =
            (gap ++ bl :: (mid ++ [el])) ++ rest by simp, ← hfl, slice_shift] at h6
          exact h6
        rw [ih rest hrlen hsafe2
          (insert_tikz_in_ert (bl :: (mid ++ [el])) pfx n).2 n2]
        simp [hR1]

/-- C2 (amended): for an alphanumeric name stem and a document in
which no located region's leading sub-block (the lines before the
region's first layout block, headed by the region-begin line) itself
triggers an insertion, rewriting is idempotent: a second run on the
first run's output returns it unchanged.  (When the leading sub-block
does trigger an insertion the marker lands before the region-begin
line, escapes the region, and the second run inserts again.) -/
theorem c2_corrected_idempotent (doc : List Line) (cs : Int) (pfx : List Char)
    (hpfx : ∀ c ∈ pfx, c.isAlphanum = true)
    (hsafe : ∀ se ∈ find_ert_blocks doc,
      has_environment ((split_into_layout_blocks
        ((doc.drop se.1).take (se.2 + 1 - se.1))).getD 0 []) = false ∨
      has_tikzset ((split_into_layout_blocks
        ((doc.drop se.1).take (se.2 + 1 - se.1))).getD 0 []) = true) :
    rewriteDoc (rewriteDoc doc cs pfx) cs pfx = rewriteDoc doc cs pfx := by
  rw [rewriteDoc_eq_drGo doc cs pfx]
  rw [rewriteDoc_eq_drGo
    ((drGo pfx doc none (effectiveStartIndex doc cs pfx).toNat).1) cs pfx]
  rw [drGo_idem pfx hpfx doc.length doc le_rfl hsafe
    (effectiveStartIndex doc cs pfx).toNat]

set_option maxRecDepth 8192 in
/-- Counterexample to C2 as stated: a region whose header sub-block
(before any layout block) contains a qualifying environment opening
receives the marker before the region-begin line; the marker escapes
the region and a second run inserts another one. -/
theorem c2_counterexample :
    rewriteDoc (rewriteDoc exDocHeaderEnv 1 ("qcpict".toList)) 1 ("qcpict".toList) ≠
      rewriteDoc exDocHeaderEnv 1 ("qcpict".toList) := by
  decide

/-- Witness for C2: a well-behaved one-region document satisfies both
hypotheses and rewriting it twice equals rewriting it once. -/
theorem c2_witness :
    ((∀ c ∈ ("qcpict".toList : List Char), c.isAlphanum = true) ∧
      (∀ se ∈ find_ert_blocks exDocPlain,
        has_environment ((split_into_layout_blocks
          ((exDocPlain.drop se.1).take (se.2 + 1 - se.1))).getD 0 []) = false ∨
        has_tikzset ((split_into_layout_blocks
          ((exDocPlain.drop se.1).take (se.2 + 1 - se.1))).getD 0 []) = true)) ∧
    rewriteDoc (rewriteDoc exDocPlain 1 ("qcpict".toList)) 1 ("qcpict".toList) =
      rewriteDoc exDocPlain 1 ("qcpict".toList) :=
  ⟨⟨by decide, by decide⟩,
    c2_corrected_idempotent exDocPlain 1 ("qcpict".toList) (by decide) (by decide)⟩

end InsertTikz
